import Mathlib

/-!
Verification development for the lexical and syntactic front end of a small
experimental language (sources: src/src/lexer.rs and src/src/parser.rs).

The lexer is embedded at the byte level: the Rust code stores the source as
a byte slice and classifies bytes through `char::from(u8)` (a Latin-1 view
of the single byte), so the model works on `List Nat` of byte values and the
character-class predicates below are the restrictions of Rust's `char`
predicates to code points 0..255.

The files token.rs and ast.rs of this repository are not present under src/;
the definitions taken from them (the token kinds, the keyword table,
Token::end_of_file, the AST node types) are modelled from the spec and are
marked as such in their doc comments.
-/

set_option maxHeartbeats 1000000
set_option maxRecDepth 10000

deriving instance DecidableEq for Except

/-- Modelled from the spec: the token classification tags of token.rs
(token.rs is absent from src/).  The kinds are the ones named by the spec
and used by lexer.rs and parser.rs: the synthesized end-of-file tag, the
textual classes, the punctuation tags, and the keyword family
(`let`, `mut`, `fn` and the sized numeric type names). -/
inductive Kind where
  | EndOfFile
  | Whitespace
  | Comment
  | Identifier
  | IntegerLiteral
  | String
  | Unknown
  | EqualSign
  | Colon
  | Plus
  | Minus
  | Arrow
  | Divide
  | Star
  | LeftParenthesis
  | RightParenthesis
  | LeftSquareBracket
  | RightSquareBracket
  | LeftBrace
  | RightBrace
  | Semicolon
  | Let
  | Mut
  | Fn
  | Int1
  | Int2
  | Int4
  | Int8
  | Int16
  | Int32
  | Int64
  | Float16
  | BFloat16
  | Float32
  | Float64
deriving DecidableEq, Repr

/-- Modelled from the spec: the Token value of token.rs (absent from src/):
a classification tag, the exact source substring (here: its bytes), and the
byte offset of its first byte. -/
structure Token where
  text : List Nat
  offset : Nat
  kind : Kind
deriving DecidableEq, Repr

/-- Modelled from the spec: Token::end_of_file of token.rs (absent from
src/): the synthesized end-of-file token carries empty text and the offset
handed to it by the lexer. -/
def Token.end_of_file (position : Nat) : Token :=
  ⟨[], position, Kind.EndOfFile⟩

/-- Rust `char::is_whitespace` restricted to code points 0..255
(the White_Space code points below 256 are 9-13, 32, 133 and 160). -/
def isWhitespaceChar (c : Nat) : Bool :=
  c == 9 || c == 10 || c == 11 || c == 12 || c == 13 || c == 32 || c == 133 || c == 160

/-- Rust `u8::is_ascii_alphabetic` / the same test on the current char. -/
def isAsciiAlphabetic (c : Nat) : Bool :=
  (65 ≤ c && c ≤ 90) || (97 ≤ c && c ≤ 122)

/-- Rust `char::is_ascii_digit`. -/
def isAsciiDigit (c : Nat) : Bool :=
  48 ≤ c && c ≤ 57

/-- Rust `char::is_ascii_alphanumeric`. -/
def isAsciiAlphanumeric (c : Nat) : Bool :=
  isAsciiAlphabetic c || isAsciiDigit c

/-- Rust `char::is_alphanumeric` (Unicode Alphabetic or Numeric) restricted
to code points 0..255: the ASCII alphanumerics together with 170, 178, 179,
181, 185, 186, 188-190, 192-214, 216-246 and 248-255.  Note this predicate
is used by the keyword scan and, unlike the identifier scan, rejects the
underscore (95). -/
def isAlphanumericChar (c : Nat) : Bool :=
  isAsciiAlphanumeric c || c == 170 || c == 178 || c == 179 || c == 181 ||
    c == 185 || c == 186 || (188 ≤ c && c ≤ 190) || (192 ≤ c && c ≤ 214) ||
    (216 ≤ c && c ≤ 246) || (248 ≤ c && c ≤ 255)

/-- The characters accepted inside an identifier after its first character:
`is_ascii_alphanumeric` or the underscore (lexer.rs line 95). -/
def isIdentChar (c : Nat) : Bool :=
  isAsciiAlphanumeric c || c == 95

/-- The UTF-8 bytes of an ASCII string literal, as natural numbers. -/
def bytes (s : String) : List Nat :=
  s.toList.map Char.toNat

/-- Modelled from the spec: the fixed keyword table KEYWORDS of token.rs
(absent from src/): `let`, `mut`, `fn` and the sized numeric type names. -/
def KEYWORDS : List (List Nat × Kind) :=
  [ (bytes "let", Kind.Let)
  , (bytes "mut", Kind.Mut)
  , (bytes "fn", Kind.Fn)
  , (bytes "int1", Kind.Int1)
  , (bytes "int2", Kind.Int2)
  , (bytes "int4", Kind.Int4)
  , (bytes "int8", Kind.Int8)
  , (bytes "int16", Kind.Int16)
  , (bytes "int32", Kind.Int32)
  , (bytes "int64", Kind.Int64)
  , (bytes "float16", Kind.Float16)
  , (bytes "bfloat16", Kind.BFloat16)
  , (bytes "float32", Kind.Float32)
  , (bytes "float64", Kind.Float64)
  ]

/-- KEYWORDS.get(text) of maybe_read_keyword (lexer.rs line 112).  The Rust
code first runs str::from_utf8 on the scanned bytes and treats a UTF-8
error exactly like a failed table lookup (both reset and return None); since
every key of the table is pure ASCII, a byte list equal to a key is valid
UTF-8, so the two failure branches of the source collapse into a lookup
failure here. -/
def keywordLookup (text : List Nat) : Option Kind :=
  (KEYWORDS.find? (fun kv => kv.1 = text)).map (fun kv => kv.2)

/-- The Lexer state of lexer.rs: the source bytes, the `position` of the
current byte, the `read_position` of the next byte to fetch, and the current
`byte` (0 once the input is exhausted). -/
structure Lexer where
  input : List Nat
  position : Nat
  read_position : Nat
  byte : Nat
deriving DecidableEq, Repr

/-- Lexer::step (lexer.rs lines 30-39): fetch the byte at read_position;
at the end of the input only `byte` is cleared and the cursor fields are
left unchanged. -/
def Lexer.step (l : Lexer) : Lexer :=
  match l.input.get? l.read_position with
  | none => { l with byte := 0 }
  | some b =>
      { l with position := l.read_position, read_position := l.read_position + 1, byte := b }

/-- Lexer::reset (lexer.rs lines 42-49). -/
def Lexer.reset (l : Lexer) (position : Nat) : Lexer :=
  { l with position := position, read_position := position + 1,
           byte := (l.input.get? position).getD 0 }

/-- Lexer::peek_char (lexer.rs lines 52-57): the next byte, or 0 at the end
of the input. -/
def Lexer.peek_char (l : Lexer) : Nat :=
  (l.input.get? l.read_position).getD 0

/-- Lexer::text_range (lexer.rs lines 60-62): the bytes between `start`
(inclusive) and the read position (exclusive). -/
def Lexer.text_range (l : Lexer) (start : Nat) : List Nat :=
  (l.input.take l.read_position).drop start

/-- Lexer::text_token (lexer.rs lines 70-72). -/
def Lexer.text_token (l : Lexer) (start : Nat) (kind : Kind) : Token :=
  ⟨l.text_range start, start, kind⟩

/-- Lexer::char_token (lexer.rs lines 65-67). -/
def Lexer.char_token (l : Lexer) (kind : Kind) : Token :=
  l.text_token l.position kind

/-- Lexer::new (lexer.rs lines 13-22). -/
def Lexer.new (input : List Nat) : Lexer :=
  Lexer.step ⟨input, 0, 0, 0⟩

/-- The scanning loops of the lexer all have the shape
`while pred(self.peek_char()) { self.step(); }`.  The loop is embedded with
a fuel argument so that it stays structurally recursive; every call site
passes `input.length + 1`, which the lemmas below show is enough fuel,
because each iteration needs `pred` to hold of a real byte and therefore
advances read_position. -/
def scanWhile (fuel : Nat) (pred : Nat → Bool) (l : Lexer) : Lexer :=
  match fuel with
  | 0 => l
  | fuel + 1 => if pred l.peek_char then scanWhile fuel pred l.step else l

/-- Lexer::maybe_read_whitespace (lexer.rs lines 75-86).  The pair returns
the token (if any) together with the lexer state the Rust method leaves in
`self`. -/
def Lexer.maybe_read_whitespace (l : Lexer) : Option Token × Lexer :=
  if isWhitespaceChar l.byte then
    let start := l.position
    let l1 := scanWhile (l.input.length + 1) isWhitespaceChar l
    (some (l1.text_token start Kind.Whitespace), l1)
  else (none, l)

/-- Lexer::maybe_read_identifier (lexer.rs lines 89-99). -/
def Lexer.maybe_read_identifier (l : Lexer) : Option Token × Lexer :=
  if isAsciiAlphabetic l.byte then
    let start := l.position
    let l1 := scanWhile (l.input.length + 1) isIdentChar l
    (some (l1.text_token start Kind.Identifier), l1)
  else (none, l)

/-- Lexer::maybe_read_keyword (lexer.rs lines 102-124): scan a maximal run
of (Unicode) alphanumeric characters, look the text up in KEYWORDS, and on
a miss rewind to the start. -/
def Lexer.maybe_read_keyword (l : Lexer) : Option Token × Lexer :=
  if isAsciiAlphabetic l.byte then
    let start := l.position
    let l1 := scanWhile (l.input.length + 1) isAlphanumericChar l
    match keywordLookup (l1.text_range start) with
    | some kind => (some (l1.text_token start kind), l1)
    | none => (none, l1.reset start)
  else (none, l)

/-- Lexer::maybe_read_symbol (lexer.rs lines 127-161): single characters map
to punctuation kinds; a minus looks ahead for the arrow. -/
def Lexer.maybe_read_symbol (l : Lexer) : Option Token × Lexer :=
  if l.byte = 61 then (some (l.char_token Kind.EqualSign), l)
  else if l.byte = 58 then (some (l.char_token Kind.Colon), l)
  else if l.byte = 43 then (some (l.char_token Kind.Plus), l)
  else if l.byte = 45 then
    if l.peek_char = 62 then
      let start := l.position
      let l1 := l.step
      (some (l1.text_token start Kind.Arrow), l1)
    else (some (l.char_token Kind.Minus), l)
  else if l.byte = 47 then (some (l.char_token Kind.Divide), l)
  else if l.byte = 42 then (some (l.char_token Kind.Star), l)
  else if l.byte = 40 then (some (l.char_token Kind.LeftParenthesis), l)
  else if l.byte = 41 then (some (l.char_token Kind.RightParenthesis), l)
  else if l.byte = 91 then (some (l.char_token Kind.LeftSquareBracket), l)
  else if l.byte = 93 then (some (l.char_token Kind.RightSquareBracket), l)
  else if l.byte = 123 then (some (l.char_token Kind.LeftBrace), l)
  else if l.byte = 125 then (some (l.char_token Kind.RightBrace), l)
  else (none, l)

/-- Lexer::maybe_read_integer (lexer.rs lines 164-173). -/
def Lexer.maybe_read_integer (l : Lexer) : Option Token × Lexer :=
  if isAsciiDigit l.byte then
    let start := l.position
    let l1 := scanWhile (l.input.length + 1) isAsciiDigit l
    (some (l1.text_token start Kind.IntegerLiteral), l1)
  else (none, l)

/-- The body of the string loop of maybe_read_string (lexer.rs lines
182-189): stop successfully on a peeked closing quote (34), fail on a peeked
end of input, otherwise step.  `none` is the `reset and return None` path of
the source. -/
def stringLoop (fuel : Nat) (l : Lexer) : Option Lexer :=
  match fuel with
  | 0 => none
  | fuel + 1 =>
      if l.peek_char = 34 then some l
      else if l.peek_char = 0 then none
      else stringLoop fuel l.step

/-- Lexer::maybe_read_string (lexer.rs lines 176-194): the successful token
excludes both quote characters, and the closing quote is consumed by an
extra step. -/
def Lexer.maybe_read_string (l : Lexer) : Option Token × Lexer :=
  if l.byte = 34 then
    let start := l.position
    let l1 := l.step
    match stringLoop (l1.input.length + 1) l1 with
    | some l2 => (some (l2.text_token (start + 1) Kind.String), l2.step)
    | none => (none, l1.reset start)
  else (none, l)

/-- The body of the comment loop of maybe_read_comment (lexer.rs lines
201-208): stop successfully on a peeked newline (10); otherwise step and
fail if the peeked byte is then the end of input. -/
def commentLoop (fuel : Nat) (l : Lexer) : Option Lexer :=
  match fuel with
  | 0 => none
  | fuel + 1 =>
      if l.peek_char = 10 then some l
      else
        let l2 := l.step
        if l2.peek_char = 0 then none
        else commentLoop fuel l2

/-- Lexer::maybe_read_comment (lexer.rs lines 196-212): the token text
extends to but excludes the newline, and the newline is consumed by an
extra step after the token is built. -/
def Lexer.maybe_read_comment (l : Lexer) : Option Token × Lexer :=
  if l.byte = 35 then
    let start := l.position
    match commentLoop (l.input.length + 1) l with
    | some l1 => (some (l1.text_token start Kind.Comment), l1.step)
    | none => (none, l.reset start)
  else (none, l)

/-- The catch-all loop of read_token (lexer.rs lines 233-236):
`while self.char() != 0 { self.step(); }`, fueled like the scans. -/
def unknownLoop (fuel : Nat) (l : Lexer) : Lexer :=
  match fuel with
  | 0 => l
  | fuel + 1 => if l.byte = 0 then l else unknownLoop fuel l.step

/-- Lexer::read_token (lexer.rs lines 215-239): the classification chain,
first match wins; if nothing matches, the remainder of the input becomes
one catch-all Unknown token. -/
def Lexer.read_token (l : Lexer) : Token × Lexer :=
  if l.byte = 0 then (Token.end_of_file l.position, l)
  else
    match l.maybe_read_whitespace with
    | (some t, l1) => (t, l1)
    | (none, l1) =>
      match l1.maybe_read_comment with
      | (some t, l2) => (t, l2)
      | (none, l2) =>
        match l2.maybe_read_symbol with
        | (some t, l3) => (t, l3)
        | (none, l3) =>
          match l3.maybe_read_keyword with
          | (some t, l4) => (t, l4)
          | (none, l4) =>
            match l4.maybe_read_string with
            | (some t, l5) => (t, l5)
            | (none, l5) =>
              match l5.maybe_read_integer with
              | (some t, l6) => (t, l6)
              | (none, l6) =>
                match l6.maybe_read_identifier with
                | (some t, l7) => (t, l7)
                | (none, l7) =>
                  let start := l7.position
                  let l8 := unknownLoop (l7.input.length + 1) l7
                  (l8.text_token start Kind.Unknown, l8)

/-- Lexer::next_token (lexer.rs lines 241-245). -/
def Lexer.next_token (l : Lexer) : Token × Lexer :=
  let r := l.read_token
  (r.1, r.2.step)

/-- The lexer state after n calls of next_token. -/
def lexState (l : Lexer) : Nat → Lexer
  | 0 => l
  | n + 1 => lexState (l.next_token).2 n

/-- The token returned by the (n+1)-st call of next_token. -/
def tokenAt (l : Lexer) (n : Nat) : Token :=
  ((lexState l n).next_token).1

/-- The concatenation of the texts of the first n tokens. -/
def concatUpto (l : Lexer) (n : Nat) : List Nat :=
  ((List.range n).map (fun i => (tokenAt l i).text)).flatten

/-- Modelled from the spec: the Indentifier node of ast.rs (absent from
src/; the source spells the name with the transposition). -/
structure Indentifier where
  name : List Nat
deriving DecidableEq, Repr

/-- Modelled from the spec: the IntegerLiteral node of ast.rs. -/
structure IntegerLiteral where
  text : List Nat
deriving DecidableEq, Repr

/-- Modelled from the spec: the BinaryOperator enumeration of ast.rs. -/
inductive BinaryOperator where
  | Plus
  | Minus
  | Star
  | Divide
deriving DecidableEq, Repr

/-- Modelled from the spec: the Type node of ast.rs (named AstType here
because Type is reserved in Lean). -/
structure AstType where
  name : List Nat
deriving DecidableEq, Repr

/-- Modelled from the spec: the Expression variants of ast.rs; the left and
right children of a BinaryExpression are exclusively owned, so the Boxes of
the source are plain subterms here. -/
inductive Expression where
  | Identifier (id : Indentifier)
  | IntegerLiteral (lit : IntegerLiteral)
  | BinaryExpression (operator : BinaryOperator) (left : Expression) (right : Expression)
deriving DecidableEq, Repr

/-- Modelled from the spec: the LetStatement node of ast.rs. -/
structure LetStatement where
  identifier : Indentifier
  mutable : Bool
  ttype : AstType
  expression : Expression
deriving DecidableEq, Repr

/-- Modelled from the spec: the FunctionDeclaration node of ast.rs
(parameters are always empty today). -/
structure FunctionDeclaration where
  identifier : Indentifier
  parameters : List Indentifier
  ttype : AstType
deriving DecidableEq, Repr

/-- Modelled from the spec: the Statement variants of ast.rs. -/
inductive Statement where
  | Let (s : LetStatement)
  | Expression (e : Expression)
  | FunctionDeclaration (f : FunctionDeclaration)
deriving DecidableEq, Repr

/-- Modelled from the spec: the Program node of ast.rs: the ordered sequence
of parsed statements. -/
structure Program where
  statements : List Statement
deriving DecidableEq, Repr

/-- The Parser state of parser.rs (lines 17-21): the token sequence and the
cursor pair. -/
structure Parser where
  tokens : List Token
  position : Nat
  read_position : Nat
deriving DecidableEq, Repr

/-- Parser::token (parser.rs lines 37-39).  The source indexes the slice
directly; in every state reachable under the documented precondition the
position is in bounds (proved below), so the default value of getD is never
read.  The default deliberately has kind Unknown, which no parser rule
accepts. -/
def Parser.token (p : Parser) : Token :=
  p.tokens.getD p.position ⟨[], 0, Kind.Unknown⟩

/-- The whitespace-skipping loop inside Parser::step (parser.rs lines
49-52), fueled like the lexer scans; every call passes tokens.length, which
is enough because each iteration requires read_position < tokens.length and
advances read_position. -/
def skipWhitespace (fuel : Nat) (p : Parser) : Parser :=
  match fuel with
  | 0 => p
  | fuel + 1 =>
      if p.token.kind = Kind.Whitespace ∧ p.read_position < p.tokens.length then
        skipWhitespace fuel
          { p with position := p.read_position, read_position := p.read_position + 1 }
      else p

/-- Parser::step (parser.rs lines 42-53): a no-op once read_position has
reached the end, otherwise advance once and then skip whitespace tokens. -/
def Parser.step (p : Parser) : Parser :=
  if p.tokens.length ≤ p.read_position then p
  else
    skipWhitespace p.tokens.length
      { p with position := p.read_position, read_position := p.read_position + 1 }

/-- Parser::reset (parser.rs lines 56-59). -/
def Parser.reset (p : Parser) (position : Nat) : Parser :=
  { p with position := position, read_position := position + 1 }

/-- The Debug rendering of a token used in the error messages (the `{:?}`
of the format! calls).  The derived Rust Debug output is abstracted to the
token offset; no claim depends on the rendering, only on the message text
before it. -/
def tokenDebug (t : Token) : String :=
  "Token at offset " ++ toString t.offset

/-- Parser::try_parse_let_stmt (parser.rs lines 61-148).  The entry
assertion (line 62) is modelled by the outer `none` (a fired assertion);
error messages keep the source text verbatim up to the abstracted token
rendering.  The semicolon error (lines 133-139) formats self.token() after
the reset, i.e. the token at the entry position; the type error (line 100)
formats the colon token, both as in the source. -/
def Parser.try_parse_let_stmt (p : Parser) : Option (Except String Statement × Parser) :=
  if p.token.kind ≠ Kind.Let then none
  else
    let start := p.position
    let p := p.step
    let mut_token := p.token
    let mutp : Bool × Parser :=
      if mut_token.kind = Kind.Mut then (true, p.step) else (false, p)
    let mutable := mutp.1
    let p := mutp.2
    let identifier_token := p.token
    if identifier_token.kind ≠ Kind.Identifier then
      some (Except.error ("Expected identifier, got " ++ tokenDebug identifier_token), p.reset start)
    else
      let identifier : Indentifier := ⟨identifier_token.text⟩
      let p := p.step
      let colon := p.token
      if colon.kind ≠ Kind.Colon then
        some (Except.error ("Expected colon, got " ++ tokenDebug colon), p.reset start)
      else
        let p := p.step
        let ttype_token := p.token
        if ttype_token.kind ≠ Kind.Int32 then
          some (Except.error ("Expected type, got " ++ tokenDebug colon), p.reset start)
        else
          let ttype : AstType := ⟨bytes "int32"⟩
          let p := p.step
          let equals_token := p.token
          if equals_token.kind ≠ Kind.EqualSign then
            some (Except.error ("Expected equals, got " ++ tokenDebug equals_token), p.reset start)
          else
            let p := p.step
            let expression_token := p.token
            let cont : Expression → Option (Except String Statement × Parser) := fun expression =>
              let p := p.step
              if p.token.kind ≠ Kind.Semicolon then
                let p := p.reset start
                some (Except.error ("Expected semicolon at end of statement, got " ++ tokenDebug p.token),
                      p)
              else
                let p := p.step
                some (Except.ok (Statement.Let ⟨identifier, mutable, ttype, expression⟩), p)
            if expression_token.kind = Kind.IntegerLiteral then
              cont (Expression.IntegerLiteral ⟨expression_token.text⟩)
            else if expression_token.kind = Kind.Identifier then
              cont (Expression.Identifier ⟨expression_token.text⟩)
            else
              some (Except.error ("Expected integer literal or identifier, got " ++
                      tokenDebug expression_token), p.reset start)

/-- Parser::try_parse_binary_expression (parser.rs lines 150-222); the rule
has no entry assertion, so no Option layer.  The semicolon error (lines
207-213) formats self.token() after the reset, i.e. the token at the entry
position, as in the source. -/
def Parser.try_parse_binary_expression (p : Parser) : Except String Statement × Parser :=
  let start := p.position
  let left_token := p.token
  let left? : Option Expression :=
    if left_token.kind = Kind.Identifier then some (Expression.Identifier ⟨left_token.text⟩)
    else if left_token.kind = Kind.IntegerLiteral then
      some (Expression.IntegerLiteral ⟨left_token.text⟩)
    else none
  match left? with
  | none => (Except.error ("Expected identifier, got " ++ tokenDebug left_token), p.reset start)
  | some left =>
    let p1 := p.step
    let op_token := p1.token
    let operator? : Option BinaryOperator :=
      if op_token.kind = Kind.Plus then some BinaryOperator.Plus
      else if op_token.kind = Kind.Minus then some BinaryOperator.Minus
      else if op_token.kind = Kind.Star then some BinaryOperator.Star
      else if op_token.kind = Kind.Divide then some BinaryOperator.Divide
      else none
    match operator? with
    | none => (Except.error ("Expected '+', got " ++ tokenDebug op_token), p1.reset start)
    | some operator =>
      let p2 := p1.step
      let right_token := p2.token
      let right? : Option Expression :=
        if right_token.kind = Kind.Identifier then some (Expression.Identifier ⟨right_token.text⟩)
        else if right_token.kind = Kind.IntegerLiteral then
          some (Expression.IntegerLiteral ⟨right_token.text⟩)
        else none
      match right? with
      | none => (Except.error ("Expected identifier, got " ++ tokenDebug right_token), p2.reset start)
      | some right =>
        let p3 := p2.step
        if p3.token.kind ≠ Kind.Semicolon then
          let p4 := p3.reset start
          (Except.error ("Expected semicolon at end of binary expression, got " ++ tokenDebug p4.token),
           p4)
        else
          (Except.ok (Statement.Expression (Expression.BinaryExpression operator left right)), p3.step)

/-- Parser::try_parse_function (parser.rs lines 224-284); the entry
assertion (line 226) is modelled by the outer `none`.  All errors from the
left-parenthesis check on (lines 241-275) format self.token() after the
reset, i.e. the token at the entry position, as in the source. -/
def Parser.try_parse_function (p : Parser) : Option (Except String Statement × Parser) :=
  let start := p.position
  if p.token.kind ≠ Kind.Fn then none
  else
    let p1 := p.step
    let identifier_token := p1.token
    if identifier_token.kind ≠ Kind.Identifier then
      some (Except.error ("Expected identifier, got " ++ tokenDebug identifier_token), p1.reset start)
    else
      let identifier : Indentifier := ⟨identifier_token.text⟩
      let p2 := p1.step
      if p2.token.kind ≠ Kind.LeftParenthesis then
        let q := p2.reset start
        some (Except.error ("Expected '(', got " ++ tokenDebug q.token), q)
      else
        let p3 := p2.step
        if p3.token.kind ≠ Kind.RightParenthesis then
          let q := p3.reset start
          some (Except.error ("Expected ')', got " ++ tokenDebug q.token), q)
        else
          let p4 := p3.step
          if p4.token.kind ≠ Kind.Arrow then
            let q := p4.reset start
            some (Except.error ("Expected '->', got " ++ tokenDebug q.token), q)
          else
            let p5 := p4.step
            if p5.token.kind ≠ Kind.Int32 then
              let q := p5.reset start
              some (Except.error ("Expected 'int32', got " ++ tokenDebug q.token), q)
            else
              let return_type : AstType := ⟨bytes "int32"⟩
              let p6 := p5.step
              if p6.token.kind ≠ Kind.Semicolon then
                let q := p6.reset start
                some (Except.error ("Expected semicolon at end of binary expression, got " ++
                        tokenDebug q.token), q)
              else
                let p7 := p6.step
                some (Except.ok (Statement.FunctionDeclaration ⟨identifier, [], return_type⟩), p7)

/-- Parser::read_statement (parser.rs lines 287-296): dispatch on the
current token kind. -/
def Parser.read_statement (p : Parser) : Option (Except String Statement × Parser) :=
  if p.token.kind = Kind.Let then p.try_parse_let_stmt
  else if p.token.kind = Kind.Identifier then some p.try_parse_binary_expression
  else if p.token.kind = Kind.IntegerLiteral then some p.try_parse_binary_expression
  else if p.token.kind = Kind.Fn then p.try_parse_function
  else some (Except.error ("Failed to parse token " ++ tokenDebug p.token), p)

/-- Parser::next_stmt (parser.rs lines 302-308): advance once more after a
successful statement. -/
def Parser.next_stmt (p : Parser) : Option (Except String Statement × Parser) :=
  match p.read_statement with
  | none => none
  | some (Except.ok s, p1) => some (Except.ok s, p1.step)
  | some (Except.error e, p1) => some (Except.error e, p1)

/-- The while loop of Parser::parse_program (parser.rs lines 316-322),
fueled; parse_program passes tokens.length + 1, shown sufficient below
because every successful statement strictly advances the position.  A
`none` is either a fired assertion inside a rule or exhausted fuel; under
the documented precondition neither happens (proved below). -/
def parseLoop (fuel : Nat) (p : Parser) (acc : List Statement) :
    Option (Except String (List Statement)) :=
  match fuel with
  | 0 => none
  | fuel + 1 =>
      if p.token.kind = Kind.EndOfFile then some (Except.ok acc.reverse)
      else
        match p.next_stmt with
        | none => none
        | some (Except.error e, _) => some (Except.error e)
        | some (Except.ok s, p1) => parseLoop fuel (p1.step) (s :: acc)

/-- Parser::new (parser.rs lines 24-34): the two assertions (nonempty, last
token is end-of-file) are modelled by `none`. -/
def Parser.new (tokens : List Token) : Option Parser :=
  match tokens.getLast? with
  | none => none
  | some t =>
      if t.kind = Kind.EndOfFile then some (Parser.step ⟨tokens, 0, 0⟩)
      else none

/-- Parser::parse_program (parser.rs lines 313-324); the ParserError struct
is modelled by its message string. -/
def Parser.parse_program (tokens : List Token) : Option (Except String Program) :=
  match Parser.new tokens with
  | none => none
  | some p =>
      match parseLoop (tokens.length + 1) p [] with
      | none => none
      | some (Except.error e) => some (Except.error e)
      | some (Except.ok stmts) => some (Except.ok ⟨stmts⟩)

/-- Shorthand for writing test token sequences. -/
def tok (s : String) (off : Nat) (k : Kind) : Token :=
  ⟨bytes s, off, k⟩

/-- The token sequence of `"let mut x: int32 = y;"` (the spec's token model:
whitespace runs are tokens, the terminating semicolon is a Semicolon token,
and the sequence ends in exactly one end-of-file token at the source's
length). -/
def c5Tokens : List Token :=
  [ tok "let" 0 Kind.Let, tok " " 3 Kind.Whitespace, tok "mut" 4 Kind.Mut
  , tok " " 7 Kind.Whitespace, tok "x" 8 Kind.Identifier, tok ":" 9 Kind.Colon
  , tok " " 10 Kind.Whitespace, tok "int32" 11 Kind.Int32, tok " " 16 Kind.Whitespace
  , tok "=" 17 Kind.EqualSign, tok " " 18 Kind.Whitespace, tok "y" 19 Kind.Identifier
  , tok ";" 20 Kind.Semicolon, Token.end_of_file 21 ]

/-- The token sequence of `"let x: int32 = 5"` (no trailing semicolon). -/
def c4Tokens : List Token :=
  [ tok "let" 0 Kind.Let, tok " " 3 Kind.Whitespace, tok "x" 4 Kind.Identifier
  , tok ":" 5 Kind.Colon, tok " " 6 Kind.Whitespace, tok "int32" 7 Kind.Int32
  , tok " " 12 Kind.Whitespace, tok "=" 13 Kind.EqualSign, tok " " 14 Kind.Whitespace
  , tok "5" 15 Kind.IntegerLiteral, Token.end_of_file 16 ]

/-- The token sequence of a let statement whose type position holds a token
of the given keyword kind. -/
def letTokensWithType (k : Kind) : List Token :=
  [ tok "let" 0 Kind.Let, tok "x" 4 Kind.Identifier, tok ":" 5 Kind.Colon
  , tok "t" 7 k, tok "=" 9 Kind.EqualSign, tok "5" 11 Kind.IntegerLiteral
  , tok ";" 12 Kind.Semicolon, Token.end_of_file 13 ]

/-- The token sequence of a function declaration whose return-type position
holds a token of the given keyword kind. -/
def fnTokensWithType (k : Kind) : List Token :=
  [ tok "fn" 0 Kind.Fn, tok "five" 3 Kind.Identifier, tok "(" 7 Kind.LeftParenthesis
  , tok ")" 8 Kind.RightParenthesis, tok "->" 10 Kind.Arrow, tok "t" 13 k
  , tok ";" 14 Kind.Semicolon, Token.end_of_file 15 ]

/-- The sized numeric keyword kinds recognized by the lexer (spec section 3). -/
def numericKinds : List Kind :=
  [ Kind.Int1, Kind.Int2, Kind.Int4, Kind.Int8, Kind.Int16, Kind.Int32, Kind.Int64
  , Kind.Float16, Kind.BFloat16, Kind.Float32, Kind.Float64 ]

/-- Whether a parse outcome is a syntax error (an un-fired-assertion error
result). -/
def isParseError (r : Option (Except String Program)) : Bool :=
  match r with
  | some (Except.error _) => true
  | _ => false

/-- The byte of src at index n, or 0 past the end (src.getD n 0). -/
def byteAt (src : List Nat) (n : Nat) : Nat :=
  src.getD n 0

/-- The canonical lexer state whose read position is q: the byte at q - 1
has just been fetched.  Every state the lexer reaches while input remains
has this shape (`Lexer.new` produces atPos src 1 on nonempty input, and a
successful step from atPos src q yields atPos src (q+1)). -/
def atPos (src : List Nat) (q : Nat) : Lexer :=
  ⟨src, q - 1, q, byteAt src (q - 1)⟩

/-- The lexer state once the input is exhausted: read_position stuck at the
length, position at the last fetched index, byte cleared.  On this state
next_token returns the end-of-file token forever without moving. -/
def doneLex (src : List Nat) : Lexer :=
  ⟨src, src.length - 1, src.length, 0⟩

/-- The bytes that begin a symbol token (the guards of maybe_read_symbol). -/
def isSymbolStart (b : Nat) : Bool :=
  b == 61 || b == 58 || b == 43 || b == 45 || b == 47 || b == 42 || b == 40 ||
    b == 41 || b == 91 || b == 93 || b == 123 || b == 125

/-- The well-formedness a parser state keeps while a rule consumes tokens
starting from entry state p: same tokens, cursor invariant, monotone
position, position in bounds. -/
def StepOk (p q : Parser) : Prop :=
  q.tokens = p.tokens ∧ q.read_position = q.position + 1 ∧
    p.position ≤ q.position ∧ q.position < p.tokens.length

/-- StepOk together with strict progress. -/
def RuleOk (p q : Parser) : Prop :=
  StepOk p q ∧ p.position < q.position

theorem byteAt_mem (src : List Nat) (n : Nat) (h : n < src.length) :
    byteAt src n ∈ src := by
  have h' : src.get? n = some (src.get ⟨n, h⟩) := List.get?_eq_get h
  have heq : byteAt src n = src.get ⟨n, h⟩ := by
    simp [byteAt, List.getD, List.getElem?_eq_getElem, h]
  rw [heq]
  exact src.get_mem _ _

theorem byteAt_ne_zero (src : List Nat) (n : Nat) (h0 : 0 ∉ src) (h : n < src.length) :
    byteAt src n ≠ 0 := by
  intro hz
  exact h0 (hz ▸ byteAt_mem src n h)

theorem byteAt_of_ge (src : List Nat) (n : Nat) (h : src.length ≤ n) :
    byteAt src n = 0 :=
  List.getD_eq_default src 0 h

theorem peek_atPos (src : List Nat) (q : Nat) :
    (atPos src q).peek_char = byteAt src q := rfl

theorem step_atPos (src : List Nat) (q : Nat) (h : q < src.length) :
    (atPos src q).step = atPos src (q + 1) := by
  have h' : src[q]? = some src[q] := List.getElem?_eq_getElem h
  have hb : byteAt src q = src[q] := by
    simp [byteAt, List.getD, h']
  simp [Lexer.step, atPos, h', hb]

theorem step_atPos_end (src : List Nat) :
    (atPos src src.length).step = doneLex src := by
  have h' : src.get? src.length = none := by
    simp [List.get?_eq_none]
  simp [Lexer.step, atPos, doneLex, h']

theorem step_done (src : List Nat) : (doneLex src).step = doneLex src := by
  have h' : src.get? src.length = none := by
    simp [List.get?_eq_none]
  simp [Lexer.step, doneLex, h']

theorem reset_eq (l : Lexer) (p : Nat) (src : List Nat) (h : l.input = src) :
    l.reset p = atPos src (p + 1) := by
  simp [Lexer.reset, atPos, h, byteAt, List.getD]

theorem text_token_atPos (src : List Nat) (q s : Nat) (k : Kind) :
    (atPos src q).text_token s k = ⟨(src.take q).drop s, s, k⟩ := rfl

theorem text_token_done (src : List Nat) (s : Nat) (k : Kind) :
    (doneLex src).text_token s k = ⟨src.drop s, s, k⟩ := by
  simp [Lexer.text_token, Lexer.text_range, doneLex, List.take_length]

/-- The scanning loops: from the canonical state at q, with a predicate
that rejects the end-of-input marker 0, the loop lands on a canonical state
at some q' between q and the input length. -/
theorem scanWhile_atPos (pred : Nat → Bool) (hpred : pred 0 = false) (src : List Nat) :
    ∀ fuel q, q ≤ src.length → src.length - q ≤ fuel →
      ∃ q', q ≤ q' ∧ q' ≤ src.length ∧
        scanWhile fuel pred (atPos src q) = atPos src q' := by
  intro fuel
  induction fuel with
  | zero =>
      intro q hq hf
      have : q = src.length := by omega
      exact ⟨q, le_refl q, by omega, rfl⟩
  | succ fuel ih =>
      intro q hq hf
      by_cases hp : pred ((atPos src q).peek_char) = true
      · have hqlt : q < src.length := by
          by_contra hge
          have : q = src.length := by omega
          rw [peek_atPos, this, byteAt_of_ge src _ (le_refl _)] at hp
          rw [hpred] at hp
          exact Bool.false_ne_true hp
        rw [scanWhile, if_pos hp, step_atPos src q hqlt]
        obtain ⟨q', h1, h2, h3⟩ := ih (q + 1) (by omega) (by omega)
        exact ⟨q', by omega, h2, h3⟩
      · rw [scanWhile, if_neg hp]
        exact ⟨q, le_refl q, hq, rfl⟩

/-- The catch-all loop consumes every remaining byte of a NUL-free input
and leaves the exhausted state. -/
theorem unknownLoop_atPos (src : List Nat) (h0 : 0 ∉ src) :
    ∀ fuel q, 1 ≤ q → q ≤ src.length → src.length - q < fuel →
      unknownLoop fuel (atPos src q) = doneLex src := by
  intro fuel
  induction fuel with
  | zero => intro q _ _ hf; omega
  | succ fuel ih =>
      intro q hq1 hq2 hf
      have hb : (atPos src q).byte ≠ 0 := by
        have : q - 1 < src.length := by omega
        exact byteAt_ne_zero src (q - 1) h0 this
      rw [unknownLoop, if_neg hb]
      by_cases hlt : q < src.length
      · rw [step_atPos src q hlt]
        exact ih (q + 1) (by omega) (by omega) (by omega)
      · have hq : q = src.length := by omega
        rw [hq, step_atPos_end]
        cases fuel with
        | zero => rfl
        | succ fuel => simp [unknownLoop, doneLex]

/-- The string loop from the canonical state at q on a NUL-free input:
either it stops successfully at some index j holding a quote byte, or it
returns the failure marker. -/
theorem stringLoop_total (src : List Nat) :
    ∀ fuel q, q ≤ src.length → src.length + 1 - q ≤ fuel →
      (∃ j, q ≤ j ∧ j < src.length ∧ byteAt src j = 34 ∧
        stringLoop fuel (atPos src q) = some (atPos src j)) ∨
      stringLoop fuel (atPos src q) = none := by
  intro fuel
  induction fuel with
  | zero => intro q hq hf; omega
  | succ fuel ih =>
      intro q hq hf
      by_cases h34 : (atPos src q).peek_char = 34
      · have hqlt : q < src.length := by
          by_contra hge
          rw [peek_atPos, byteAt_of_ge src q (by omega)] at h34
          omega
        rw [peek_atPos] at h34
        exact Or.inl ⟨q, le_refl q, hqlt, h34, by rw [stringLoop, if_pos (by rw [peek_atPos]; exact h34)]⟩
      · by_cases hz : (atPos src q).peek_char = 0
        · exact Or.inr (by rw [stringLoop, if_neg h34, if_pos hz])
        · have hqlt : q < src.length := by
            by_contra hge
            exact hz (by rw [peek_atPos, byteAt_of_ge src q (by omega)])
          rw [stringLoop, if_neg h34, if_neg hz, step_atPos src q hqlt]
          rcases ih (q + 1) (by omega) (by omega) with ⟨j, h1, h2, h3, h4⟩ | hnone
          · exact Or.inl ⟨j, by omega, h2, h3, h4⟩
          · exact Or.inr hnone

/-- The comment loop from the canonical state at q on a NUL-free input:
either it stops successfully at some index j holding a newline byte, or it
returns the failure marker. -/
theorem commentLoop_total (src : List Nat) :
    ∀ fuel q, q ≤ src.length → src.length + 1 - q ≤ fuel →
      (∃ j, q ≤ j ∧ j < src.length ∧ byteAt src j = 10 ∧
        commentLoop fuel (atPos src q) = some (atPos src j)) ∨
      commentLoop fuel (atPos src q) = none := by
  intro fuel
  induction fuel with
  | zero => intro q hq hf; omega
  | succ fuel ih =>
      intro q hq hf
      by_cases h10 : (atPos src q).peek_char = 10
      · have hqlt : q < src.length := by
          by_contra hge
          rw [peek_atPos, byteAt_of_ge src q (by omega)] at h10
          omega
        rw [peek_atPos] at h10
        exact Or.inl ⟨q, le_refl q, hqlt, h10, by rw [commentLoop, if_pos (by rw [peek_atPos]; exact h10)]⟩
      · by_cases hqlt : q < src.length
        · rw [commentLoop, if_neg h10, step_atPos src q hqlt]
          by_cases hz : (atPos src (q + 1)).peek_char = 0
          · exact Or.inr (by rw [if_pos hz])
          · have hq1 : q + 1 ≤ src.length := by
              by_contra hge
              exact hz (by rw [peek_atPos, byteAt_of_ge src (q + 1) (by omega)])
            rw [if_neg hz]
            rcases ih (q + 1) hq1 (by omega) with ⟨j, h1, h2, h3, h4⟩ | hnone
            · exact Or.inl ⟨j, by omega, h2, h3, h4⟩
            · exact Or.inr hnone
        · have hq' : q = src.length := by omega
          refine Or.inr ?_
          rw [commentLoop, if_neg h10, hq', step_atPos_end, if_pos ?_]
          simp [Lexer.peek_char, doneLex, List.get?_eq_none]

theorem atPos_succ_byte (src : List Nat) (p : Nat) :
    (atPos src (p + 1)).byte = byteAt src p := rfl

theorem atPos_succ_pos (src : List Nat) (p : Nat) :
    (atPos src (p + 1)).position = p := rfl

theorem atPos_input (src : List Nat) (q : Nat) : (atPos src q).input = src := rfl

/-- Attempting whitespace on a non-whitespace byte: no token, state intact. -/
theorem ws_none (src : List Nat) (p : Nat) (h : isWhitespaceChar (byteAt src p) = false) :
    (atPos src (p + 1)).maybe_read_whitespace = (none, atPos src (p + 1)) := by
  simp [Lexer.maybe_read_whitespace, atPos_succ_byte, h]

/-- A whitespace run: the token covers the consumed slice starting at p,
and the state lands on the canonical state at the run's end. -/
theorem ws_some (src : List Nat) (p : Nat) (hp : p < src.length)
    (h : isWhitespaceChar (byteAt src p) = true) :
    ∃ q, p < q ∧ q ≤ src.length ∧
      (atPos src (p + 1)).maybe_read_whitespace =
        (some ⟨(src.take q).drop p, p, Kind.Whitespace⟩, atPos src q) := by
  obtain ⟨q, h1, h2, h3⟩ :=
    scanWhile_atPos isWhitespaceChar (by decide) src (src.length + 1) (p + 1) (by omega) (by omega)
  refine ⟨q, by omega, h2, ?_⟩
  simp only [Lexer.maybe_read_whitespace, atPos_succ_byte, atPos_succ_pos, atPos_input, h, if_true]
  rw [h3, text_token_atPos]

/-- Attempting an identifier on a byte that is not ASCII alphabetic. -/
theorem ident_none (src : List Nat) (p : Nat) (h : isAsciiAlphabetic (byteAt src p) = false) :
    (atPos src (p + 1)).maybe_read_identifier = (none, atPos src (p + 1)) := by
  simp [Lexer.maybe_read_identifier, atPos_succ_byte, h]

/-- A successful identifier scan. -/
theorem ident_some (src : List Nat) (p : Nat) (hp : p < src.length)
    (h : isAsciiAlphabetic (byteAt src p) = true) :
    ∃ q, p < q ∧ q ≤ src.length ∧
      (atPos src (p + 1)).maybe_read_identifier =
        (some ⟨(src.take q).drop p, p, Kind.Identifier⟩, atPos src q) := by
  obtain ⟨q, h1, h2, h3⟩ :=
    scanWhile_atPos isIdentChar (by decide) src (src.length + 1) (p + 1) (by omega) (by omega)
  refine ⟨q, by omega, h2, ?_⟩
  simp only [Lexer.maybe_read_identifier, atPos_succ_byte, atPos_succ_pos, atPos_input, h, if_true]
  rw [h3, text_token_atPos]

/-- Attempting an integer on a non-digit byte. -/
theorem int_none (src : List Nat) (p : Nat) (h : isAsciiDigit (byteAt src p) = false) :
    (atPos src (p + 1)).maybe_read_integer = (none, atPos src (p + 1)) := by
  simp [Lexer.maybe_read_integer, atPos_succ_byte, h]

/-- A successful integer scan. -/
theorem int_some (src : List Nat) (p : Nat) (hp : p < src.length)
    (h : isAsciiDigit (byteAt src p) = true) :
    ∃ q, p < q ∧ q ≤ src.length ∧
      (atPos src (p + 1)).maybe_read_integer =
        (some ⟨(src.take q).drop p, p, Kind.IntegerLiteral⟩, atPos src q) := by
  obtain ⟨q, h1, h2, h3⟩ :=
    scanWhile_atPos isAsciiDigit (by decide) src (src.length + 1) (p + 1) (by omega) (by omega)
  refine ⟨q, by omega, h2, ?_⟩
  simp only [Lexer.maybe_read_integer, atPos_succ_byte, atPos_succ_pos, atPos_input, h, if_true]
  rw [h3, text_token_atPos]

/-- Attempting a keyword on a byte that is not ASCII alphabetic. -/
theorem kw_none (src : List Nat) (p : Nat) (h : isAsciiAlphabetic (byteAt src p) = false) :
    (atPos src (p + 1)).maybe_read_keyword = (none, atPos src (p + 1)) := by
  simp [Lexer.maybe_read_keyword, atPos_succ_byte, h]

/-- Any kind stored in the keyword table differs from the classification
tags the keyword branch must not produce. -/
theorem kw_lookup_kind (text : List Nat) (k : Kind) (h : keywordLookup text = some k) :
    k ≠ Kind.EndOfFile := by
  unfold keywordLookup at h
  cases hf : KEYWORDS.find? (fun kv => kv.1 = text) with
  | none => rw [hf] at h; simp at h
  | some kv =>
      rw [hf] at h
      simp at h
      have hmem : kv ∈ KEYWORDS := List.mem_of_find?_eq_some hf
      have : ∀ kv' ∈ KEYWORDS, kv'.2 ≠ Kind.EndOfFile := by decide
      rw [← h]
      exact this kv hmem

/-- The keyword attempt on an alphabetic start: the alphanumeric run is
scanned; a table hit produces the keyword token, a miss rewinds to the
exact entry state. -/
theorem kw_cases (src : List Nat) (p : Nat) (hp : p < src.length)
    (h : isAsciiAlphabetic (byteAt src p) = true) :
    ∃ q, p < q ∧ q ≤ src.length ∧
      ((∃ k, keywordLookup ((src.take q).drop p) = some k ∧
          (atPos src (p + 1)).maybe_read_keyword =
            (some ⟨(src.take q).drop p, p, k⟩, atPos src q)) ∨
        (keywordLookup ((src.take q).drop p) = none ∧
          (atPos src (p + 1)).maybe_read_keyword = (none, atPos src (p + 1)))) := by
  obtain ⟨q, h1, h2, h3⟩ :=
    scanWhile_atPos isAlphanumericChar (by decide) src (src.length + 1) (p + 1) (by omega) (by omega)
  refine ⟨q, by omega, h2, ?_⟩
  have htr : (atPos src q).text_range p = (src.take q).drop p := rfl
  cases hk : keywordLookup ((src.take q).drop p) with
  | some k =>
      refine Or.inl ⟨k, rfl, ?_⟩
      simp only [Lexer.maybe_read_keyword, atPos_succ_byte, atPos_succ_pos, atPos_input, h, if_true]
      rw [h3, htr, hk]
      rfl
  | none =>
      refine Or.inr ⟨rfl, ?_⟩
      simp only [Lexer.maybe_read_keyword, atPos_succ_byte, atPos_succ_pos, atPos_input, h, if_true]
      rw [h3, htr, hk]
      rw [reset_eq _ _ _ (atPos_input src q)]

/-- Attempting a symbol on a byte outside the symbol set. -/
theorem sym_none (src : List Nat) (p : Nat) (h : isSymbolStart (byteAt src p) = false) :
    (atPos src (p + 1)).maybe_read_symbol = (none, atPos src (p + 1)) := by
  simp only [isSymbolStart, Bool.or_eq_false_iff, beq_eq_false_iff_ne, ne_eq] at h
  obtain ⟨⟨⟨⟨⟨⟨⟨⟨⟨⟨⟨h1, h2⟩, h3⟩, h4⟩, h5⟩, h6⟩, h7⟩, h8⟩, h9⟩, h10⟩, h11⟩, h12⟩ := h
  simp [Lexer.maybe_read_symbol, atPos_succ_byte, h1, h2, h3, h4, h5, h6, h7, h8, h9, h10, h11, h12]

/-- A successful symbol read: one byte, or two for the arrow. -/
theorem sym_some (src : List Nat) (p : Nat) (hp : p < src.length)
    (h : isSymbolStart (byteAt src p) = true) :
    ∃ q k, p < q ∧ q ≤ src.length ∧ k ≠ Kind.EndOfFile ∧
      (atPos src (p + 1)).maybe_read_symbol =
        (some ⟨(src.take q).drop p, p, k⟩, atPos src q) := by
  have hchar : ∀ k : Kind, (atPos src (p + 1)).char_token k =
      ⟨(src.take (p + 1)).drop p, p, k⟩ := fun k => rfl
  simp only [isSymbolStart, Bool.or_eq_true, beq_iff_eq] at h
  rcases h with ((((((((((h | h) | h) | h) | h) | h) | h) | h) | h) | h) | h) | h
  · exact ⟨p + 1, Kind.EqualSign, by omega, by omega, by decide,
      by simp [Lexer.maybe_read_symbol, atPos_succ_byte, h, hchar]⟩
  · exact ⟨p + 1, Kind.Colon, by omega, by omega, by decide,
      by simp [Lexer.maybe_read_symbol, atPos_succ_byte, h, hchar]⟩
  · exact ⟨p + 1, Kind.Plus, by omega, by omega, by decide,
      by simp [Lexer.maybe_read_symbol, atPos_succ_byte, h, hchar]⟩
  · -- minus: look ahead for the arrow
    by_cases h62 : byteAt src (p + 1) = 62
    · have hlt : p + 1 < src.length := by
        by_contra hge
        rw [byteAt_of_ge src (p + 1) (by omega)] at h62
        omega
      refine ⟨p + 2, Kind.Arrow, by omega, by omega, by decide, ?_⟩
      have hpeek : (atPos src (p + 1)).peek_char = 62 := by rw [peek_atPos]; exact h62
      have hstep : (atPos src (p + 1)).step = atPos src (p + 2) := step_atPos src (p + 1) hlt
      simp [Lexer.maybe_read_symbol, atPos_succ_byte, atPos_succ_pos, h, hpeek, hstep,
        text_token_atPos]
    · have hpeek : (atPos src (p + 1)).peek_char ≠ 62 := by rw [peek_atPos]; exact h62
      refine ⟨p + 1, Kind.Minus, by omega, by omega, by decide, ?_⟩
      simp [Lexer.maybe_read_symbol, atPos_succ_byte, h, hpeek, hchar]
  · exact ⟨p + 1, Kind.Divide, by omega, by omega, by decide,
      by simp [Lexer.maybe_read_symbol, atPos_succ_byte, h, hchar]⟩
  · exact ⟨p + 1, Kind.Star, by omega, by omega, by decide,
      by simp [Lexer.maybe_read_symbol, atPos_succ_byte, h, hchar]⟩
  · exact ⟨p + 1, Kind.LeftParenthesis, by omega, by omega, by decide,
      by simp [Lexer.maybe_read_symbol, atPos_succ_byte, h, hchar]⟩
  · exact ⟨p + 1, Kind.RightParenthesis, by omega, by omega, by decide,
      by simp [Lexer.maybe_read_symbol, atPos_succ_byte, h, hchar]⟩
  · exact ⟨p + 1, Kind.LeftSquareBracket, by omega, by omega, by decide,
      by simp [Lexer.maybe_read_symbol, atPos_succ_byte, h, hchar]⟩
  · exact ⟨p + 1, Kind.RightSquareBracket, by omega, by omega, by decide,
      by simp [Lexer.maybe_read_symbol, atPos_succ_byte, h, hchar]⟩
  · exact ⟨p + 1, Kind.LeftBrace, by omega, by omega, by decide,
      by simp [Lexer.maybe_read_symbol, atPos_succ_byte, h, hchar]⟩
  · exact ⟨p + 1, Kind.RightBrace, by omega, by omega, by decide,
      by simp [Lexer.maybe_read_symbol, atPos_succ_byte, h, hchar]⟩

/-- Attempting a string on a byte other than the double quote. -/
theorem str_none (src : List Nat) (p : Nat) (h : byteAt src p ≠ 34) :
    (atPos src (p + 1)).maybe_read_string = (none, atPos src (p + 1)) := by
  simp [Lexer.maybe_read_string, atPos_succ_byte, h]

/-- Attempting a comment on a byte other than the hash. -/
theorem com_none (src : List Nat) (p : Nat) (h : byteAt src p ≠ 35) :
    (atPos src (p + 1)).maybe_read_comment = (none, atPos src (p + 1)) := by
  simp [Lexer.maybe_read_comment, atPos_succ_byte, h]

/-- The string attempt on an opening quote: either it succeeds, leaving a
canonical state strictly beyond p, or it rewinds to the exact entry state. -/
theorem str_cases (src : List Nat) (p : Nat) (hp : p < src.length)
    (h34 : byteAt src p = 34) :
    (∃ q t, p < q ∧ q ≤ src.length ∧ t.kind = Kind.String ∧
        (atPos src (p + 1)).maybe_read_string = (some t, atPos src q)) ∨
      (atPos src (p + 1)).maybe_read_string = (none, atPos src (p + 1)) := by
  by_cases hlt : p + 1 < src.length
  · have hstep : (atPos src (p + 1)).step = atPos src (p + 2) := step_atPos src (p + 1) hlt
    rcases stringLoop_total src (src.length + 1) (p + 2) (by omega) (by omega) with
      ⟨j, hj1, hj2, hj3, hj4⟩ | hnone
    · refine Or.inl ⟨j + 1, ⟨(src.take j).drop (p + 1), p + 1, Kind.String⟩,
        by omega, by omega, rfl, ?_⟩
      simp only [Lexer.maybe_read_string, atPos_succ_byte, atPos_succ_pos]
      rw [if_pos h34, hstep]
      simp only [atPos_input]
      rw [hj4]
      change (some ((atPos src j).text_token (p + 1) Kind.String), (atPos src j).step) = _
      rw [step_atPos src j hj2]
      rfl
    · refine Or.inr ?_
      simp only [Lexer.maybe_read_string, atPos_succ_byte, atPos_succ_pos]
      rw [if_pos h34, hstep]
      simp only [atPos_input]
      rw [hnone]
      change (none, (atPos src (p + 2)).reset p) = _
      rw [reset_eq _ _ _ (atPos_input src (p + 2))]
  · have hlen : p + 1 = src.length := by omega
    have hstep : (atPos src (p + 1)).step = doneLex src := by rw [hlen, step_atPos_end]
    refine Or.inr ?_
    have hloop : stringLoop (src.length + 1) (doneLex src) = none := by
      have hpeek : (doneLex src).peek_char = 0 := by
        simp [Lexer.peek_char, doneLex, List.get?_eq_none]
      rw [stringLoop, if_neg (by rw [hpeek]; omega), if_pos hpeek]
    simp only [Lexer.maybe_read_string, atPos_succ_byte, atPos_succ_pos]
    rw [if_pos h34, hstep]
    rw [show (doneLex src).input.length = src.length from rfl]
    rw [hloop]
    change (none, (doneLex src).reset p) = _
    rw [reset_eq (doneLex src) p src rfl]

/-- The comment attempt on a hash byte: either it succeeds, stepping past
the newline, or it rewinds to the exact entry state. -/
theorem com_cases (src : List Nat) (p : Nat) (hp : p < src.length)
    (h35 : byteAt src p = 35) :
    (∃ q t, p < q ∧ q ≤ src.length ∧ t.kind = Kind.Comment ∧
        (atPos src (p + 1)).maybe_read_comment = (some t, atPos src q)) ∨
      (atPos src (p + 1)).maybe_read_comment = (none, atPos src (p + 1)) := by
  rcases commentLoop_total src (src.length + 1) (p + 1) (by omega) (by omega) with
    ⟨j, hj1, hj2, hj3, hj4⟩ | hnone
  · refine Or.inl ⟨j + 1, ⟨(src.take j).drop p, p, Kind.Comment⟩, by omega, by omega, rfl, ?_⟩
    simp only [Lexer.maybe_read_comment, atPos_succ_byte, atPos_succ_pos, atPos_input]
    rw [if_pos h35, hj4]
    change (some ((atPos src j).text_token p Kind.Comment), (atPos src j).step) = _
    rw [step_atPos src j hj2]
    rfl
  · refine Or.inr ?_
    simp only [Lexer.maybe_read_comment, atPos_succ_byte, atPos_succ_pos, atPos_input]
    rw [if_pos h35, hnone]
    change (none, (atPos src (p + 1)).reset p) = _
    rw [reset_eq _ _ _ (atPos_input src (p + 1))]

theorem alpha_not_digit (b : Nat) (h : isAsciiAlphabetic b = true) :
    isAsciiDigit b = false := by
  revert h
  simp [isAsciiAlphabetic, isAsciiDigit]
  omega

theorem alpha_ne_34 (b : Nat) (h : isAsciiAlphabetic b = true) : b ≠ 34 := by
  intro e
  rw [e] at h
  exact absurd h (by decide)

/-- One read_token call from the live state at p on a NUL-free input: the
returned token is never end-of-file, and the lexer lands either on a
canonical state strictly beyond p or on the exhausted state. -/
theorem read_token_spec (src : List Nat) (p : Nat) (h0 : 0 ∉ src) (hp : p < src.length) :
    ((atPos src (p + 1)).read_token).1.kind ≠ Kind.EndOfFile ∧
      ((∃ q, p < q ∧ q ≤ src.length ∧ ((atPos src (p + 1)).read_token).2 = atPos src q) ∨
        ((atPos src (p + 1)).read_token).2 = doneLex src) := by
  have hbz : (atPos src (p + 1)).byte ≠ 0 := by
    rw [atPos_succ_byte]
    exact byteAt_ne_zero src p h0 hp
  by_cases hws : isWhitespaceChar (byteAt src p) = true
  · obtain ⟨q, hq1, hq2, heq⟩ := ws_some src p hp hws
    simp only [Lexer.read_token, if_neg hbz, heq]
    exact ⟨by decide, Or.inl ⟨q, hq1, hq2, rfl⟩⟩
  · have hws' : isWhitespaceChar (byteAt src p) = false := Bool.eq_false_iff.mpr hws
    by_cases h35 : byteAt src p = 35
    · rcases com_cases src p hp h35 with ⟨q, t, hq1, hq2, hkind, heq⟩ | heq
      · simp only [Lexer.read_token, if_neg hbz, ws_none src p hws', heq]
        exact ⟨by rw [hkind]; decide, Or.inl ⟨q, hq1, hq2, rfl⟩⟩
      · simp only [Lexer.read_token, if_neg hbz, ws_none src p hws', heq,
          sym_none src p (by rw [h35]; decide),
          kw_none src p (by rw [h35]; decide),
          str_none src p (by rw [h35]; omega),
          int_none src p (by rw [h35]; decide),
          ident_none src p (by rw [h35]; decide),
          atPos_succ_pos, atPos_input]
        rw [unknownLoop_atPos src h0 (src.length + 1) (p + 1) (by omega) (by omega) (by omega),
          text_token_done]
        exact ⟨fun h => Kind.noConfusion h, Or.inr rfl⟩
    · by_cases hsym : isSymbolStart (byteAt src p) = true
      · obtain ⟨q, k, hq1, hq2, hk, heq⟩ := sym_some src p hp hsym
        simp only [Lexer.read_token, if_neg hbz, ws_none src p hws', com_none src p h35, heq]
        exact ⟨hk, Or.inl ⟨q, hq1, hq2, rfl⟩⟩
      · have hsym' : isSymbolStart (byteAt src p) = false := Bool.eq_false_iff.mpr hsym
        by_cases hal : isAsciiAlphabetic (byteAt src p) = true
        · obtain ⟨q, hq1, hq2, hcase⟩ := kw_cases src p hp hal
          rcases hcase with ⟨k, hk, heq⟩ | ⟨hk, heq⟩
          · simp only [Lexer.read_token, if_neg hbz, ws_none src p hws', com_none src p h35,
              sym_none src p hsym', heq]
            exact ⟨kw_lookup_kind _ _ hk, Or.inl ⟨q, hq1, hq2, rfl⟩⟩
          · obtain ⟨q', hq1', hq2', heq'⟩ := ident_some src p hp hal
            simp only [Lexer.read_token, if_neg hbz, ws_none src p hws', com_none src p h35,
              sym_none src p hsym', heq,
              str_none src p (alpha_ne_34 _ hal),
              int_none src p (alpha_not_digit _ hal), heq']
            exact ⟨by decide, Or.inl ⟨q', hq1', hq2', rfl⟩⟩
        · have hal' : isAsciiAlphabetic (byteAt src p) = false := Bool.eq_false_iff.mpr hal
          by_cases h34 : byteAt src p = 34
          · rcases str_cases src p hp h34 with ⟨q, t, hq1, hq2, hkind, heq⟩ | heq
            · simp only [Lexer.read_token, if_neg hbz, ws_none src p hws', com_none src p h35,
                sym_none src p hsym', kw_none src p hal', heq]
              exact ⟨by rw [hkind]; decide, Or.inl ⟨q, hq1, hq2, rfl⟩⟩
            · simp only [Lexer.read_token, if_neg hbz, ws_none src p hws', com_none src p h35,
                sym_none src p hsym', kw_none src p hal', heq,
                int_none src p (by rw [h34]; decide),
                ident_none src p hal', atPos_succ_pos, atPos_input]
              rw [unknownLoop_atPos src h0 (src.length + 1) (p + 1) (by omega) (by omega) (by omega),
                text_token_done]
              exact ⟨fun h => Kind.noConfusion h, Or.inr rfl⟩
          · by_cases hdig : isAsciiDigit (byteAt src p) = true
            · obtain ⟨q, hq1, hq2, heq⟩ := int_some src p hp hdig
              simp only [Lexer.read_token, if_neg hbz, ws_none src p hws', com_none src p h35,
                sym_none src p hsym', kw_none src p hal', str_none src p h34, heq]
              exact ⟨by decide, Or.inl ⟨q, hq1, hq2, rfl⟩⟩
            · have hdig' : isAsciiDigit (byteAt src p) = false := Bool.eq_false_iff.mpr hdig
              simp only [Lexer.read_token, if_neg hbz, ws_none src p hws', com_none src p h35,
                sym_none src p hsym', kw_none src p hal', str_none src p h34,
                int_none src p hdig', ident_none src p hal', atPos_succ_pos, atPos_input]
              rw [unknownLoop_atPos src h0 (src.length + 1) (p + 1) (by omega) (by omega) (by omega),
                text_token_done]
              exact ⟨fun h => Kind.noConfusion h, Or.inr rfl⟩

/-- One read_token call from the live state at p when the input contains no
NUL, no quote and no hash byte: the token's text is exactly the consumed
slice of the input, so the tokens tile the input. -/
theorem read_token_tile (src : List Nat) (p : Nat)
    (h0 : 0 ∉ src) (h34 : 34 ∉ src) (h35 : 35 ∉ src) (hp : p < src.length) :
    ((atPos src (p + 1)).read_token).1.kind ≠ Kind.EndOfFile ∧
      ∃ q, p < q ∧ q ≤ src.length ∧
        ((atPos src (p + 1)).read_token).1.text = (src.take q).drop p ∧
        (((atPos src (p + 1)).read_token).2 = atPos src q ∨
          (q = src.length ∧ ((atPos src (p + 1)).read_token).2 = doneLex src)) := by
  have hbz : (atPos src (p + 1)).byte ≠ 0 := by
    rw [atPos_succ_byte]
    exact byteAt_ne_zero src p h0 hp
  have hb34 : byteAt src p ≠ 34 := fun e => h34 (e ▸ byteAt_mem src p hp)
  have hb35 : byteAt src p ≠ 35 := fun e => h35 (e ▸ byteAt_mem src p hp)
  by_cases hws : isWhitespaceChar (byteAt src p) = true
  · obtain ⟨q, hq1, hq2, heq⟩ := ws_some src p hp hws
    simp only [Lexer.read_token, if_neg hbz, heq]
    exact ⟨by decide, q, hq1, hq2, rfl, Or.inl rfl⟩
  · have hws' : isWhitespaceChar (byteAt src p) = false := Bool.eq_false_iff.mpr hws
    by_cases hsym : isSymbolStart (byteAt src p) = true
    · obtain ⟨q, k, hq1, hq2, hk, heq⟩ := sym_some src p hp hsym
      simp only [Lexer.read_token, if_neg hbz, ws_none src p hws', com_none src p hb35, heq]
      exact ⟨hk, q, hq1, hq2, rfl, Or.inl rfl⟩
    · have hsym' : isSymbolStart (byteAt src p) = false := Bool.eq_false_iff.mpr hsym
      by_cases hal : isAsciiAlphabetic (byteAt src p) = true
      · obtain ⟨q, hq1, hq2, hcase⟩ := kw_cases src p hp hal
        rcases hcase with ⟨k, hk, heq⟩ | ⟨hk, heq⟩
        · simp only [Lexer.read_token, if_neg hbz, ws_none src p hws', com_none src p hb35,
            sym_none src p hsym', heq]
          exact ⟨kw_lookup_kind _ _ hk, q, hq1, hq2, rfl, Or.inl rfl⟩
        · obtain ⟨q', hq1', hq2', heq'⟩ := ident_some src p hp hal
          simp only [Lexer.read_token, if_neg hbz, ws_none src p hws', com_none src p hb35,
            sym_none src p hsym', heq, str_none src p (alpha_ne_34 _ hal),
            int_none src p (alpha_not_digit _ hal), heq']
          exact ⟨by decide, q', hq1', hq2', rfl, Or.inl rfl⟩
      · have hal' : isAsciiAlphabetic (byteAt src p) = false := Bool.eq_false_iff.mpr hal
        by_cases hdig : isAsciiDigit (byteAt src p) = true
        · obtain ⟨q, hq1, hq2, heq⟩ := int_some src p hp hdig
          simp only [Lexer.read_token, if_neg hbz, ws_none src p hws', com_none src p hb35,
            sym_none src p hsym', kw_none src p hal', str_none src p hb34, heq]
          exact ⟨by decide, q, hq1, hq2, rfl, Or.inl rfl⟩
        · have hdig' : isAsciiDigit (byteAt src p) = false := Bool.eq_false_iff.mpr hdig
          simp only [Lexer.read_token, if_neg hbz, ws_none src p hws', com_none src p hb35,
            sym_none src p hsym', kw_none src p hal', str_none src p hb34,
            int_none src p hdig', ident_none src p hal', atPos_succ_pos, atPos_input]
          rw [unknownLoop_atPos src h0 (src.length + 1) (p + 1) (by omega) (by omega) (by omega),
            text_token_done]
          refine ⟨fun h => Kind.noConfusion h, src.length, hp, le_refl _, ?_, Or.inr ⟨rfl, rfl⟩⟩
          rw [List.take_length]

/-- One next_token call from the live state at p on a NUL-free input: no
end-of-file yet, and the lexer is live strictly beyond p or exhausted. -/
theorem next_token_live (src : List Nat) (p : Nat) (h0 : 0 ∉ src) (hp : p < src.length) :
    ((atPos src (p + 1)).next_token).1.kind ≠ Kind.EndOfFile ∧
      ((∃ q, p < q ∧ q < src.length ∧
          ((atPos src (p + 1)).next_token).2 = atPos src (q + 1)) ∨
        ((atPos src (p + 1)).next_token).2 = doneLex src) := by
  obtain ⟨hkind, hcase⟩ := read_token_spec src p h0 hp
  refine ⟨hkind, ?_⟩
  rcases hcase with ⟨q, hq1, hq2, heq⟩ | hdone
  · by_cases hlt : q < src.length
    · refine Or.inl ⟨q, hq1, hlt, ?_⟩
      show ((atPos src (p + 1)).read_token).2.step = _
      rw [heq, step_atPos src q hlt]
    · have hq : q = src.length := by omega
      refine Or.inr ?_
      show ((atPos src (p + 1)).read_token).2.step = _
      rw [heq, hq, step_atPos_end]
  · refine Or.inr ?_
    show ((atPos src (p + 1)).read_token).2.step = _
    rw [hdone, step_done]

/-- The tiling form of next_token_live. -/
theorem next_token_tile (src : List Nat) (p : Nat)
    (h0 : 0 ∉ src) (h34 : 34 ∉ src) (h35 : 35 ∉ src) (hp : p < src.length) :
    ((atPos src (p + 1)).next_token).1.kind ≠ Kind.EndOfFile ∧
      ∃ q, p < q ∧ q ≤ src.length ∧
        ((atPos src (p + 1)).next_token).1.text = (src.take q).drop p ∧
        ((q < src.length ∧ ((atPos src (p + 1)).next_token).2 = atPos src (q + 1)) ∨
          (q = src.length ∧ ((atPos src (p + 1)).next_token).2 = doneLex src)) := by
  obtain ⟨hkind, q, hq1, hq2, htext, hcase⟩ := read_token_tile src p h0 h34 h35 hp
  refine ⟨hkind, q, hq1, hq2, htext, ?_⟩
  rcases hcase with heq | ⟨hq, heq⟩
  · by_cases hlt : q < src.length
    · refine Or.inl ⟨hlt, ?_⟩
      show ((atPos src (p + 1)).read_token).2.step = _
      rw [heq, step_atPos src q hlt]
    · have hq : q = src.length := by omega
      refine Or.inr ⟨hq, ?_⟩
      show ((atPos src (p + 1)).read_token).2.step = _
      rw [heq, hq, step_atPos_end]
  · refine Or.inr ⟨hq, ?_⟩
    show ((atPos src (p + 1)).read_token).2.step = _
    rw [heq, step_done]

/-- On the exhausted state, next_token produces the end-of-file token at
offset length - 1 and does not move: every further call repeats it. -/
theorem next_token_done (src : List Nat) :
    (doneLex src).next_token = (⟨[], src.length - 1, Kind.EndOfFile⟩, doneLex src) := by
  have hb : (doneLex src).byte = 0 := rfl
  show (((doneLex src).read_token).1, ((doneLex src).read_token).2.step) = _
  simp only [Lexer.read_token, if_pos hb]
  rw [step_done]
  rfl

theorem lexState_done (src : List Nat) (m : Nat) :
    lexState (doneLex src) m = doneLex src := by
  induction m with
  | zero => rfl
  | succ m ih =>
      show lexState ((doneLex src).next_token).2 m = doneLex src
      rw [next_token_done]
      exact ih

theorem tokenAt_done (src : List Nat) (m : Nat) :
    tokenAt (doneLex src) m = ⟨[], src.length - 1, Kind.EndOfFile⟩ := by
  rw [tokenAt, lexState_done, next_token_done]

theorem lexState_add (l : Lexer) (a b : Nat) :
    lexState l (a + b) = lexState (lexState l a) b := by
  induction a generalizing l with
  | zero => rw [Nat.zero_add]; rfl
  | succ a ih =>
      rw [show a + 1 + b = (a + b) + 1 from by omega]
      show lexState ((l.next_token).2) (a + b) = lexState (lexState l (a + 1)) b
      rw [show lexState l (a + 1) = lexState ((l.next_token).2) a from rfl]
      exact ih _

/-- The lexing run from a live state on a NUL-free input: finitely many
non-end-of-file tokens, then the exhausted state. -/
theorem lexRun (src : List Nat) (h0 : 0 ∉ src) :
    ∀ k p, p < src.length → src.length - p ≤ k →
      ∃ n, (∀ i, i < n → (tokenAt (atPos src (p + 1)) i).kind ≠ Kind.EndOfFile) ∧
        lexState (atPos src (p + 1)) n = doneLex src := by
  intro k
  induction k with
  | zero => intro p hp hf; omega
  | succ k ih =>
      intro p hp hf
      obtain ⟨hkind, hcase⟩ := next_token_live src p h0 hp
      rcases hcase with ⟨q, hq1, hq2, heq⟩ | hdone
      · obtain ⟨n, hn1, hn2⟩ := ih q hq2 (by omega)
        refine ⟨n + 1, ?_, ?_⟩
        · intro i hi
          cases i with
          | zero => exact hkind
          | succ i =>
              show (tokenAt ((atPos src (p + 1)).next_token).2 i).kind ≠ Kind.EndOfFile
              rw [heq]
              exact hn1 i (by omega)
        · show lexState ((atPos src (p + 1)).next_token).2 n = doneLex src
          rw [heq]
          exact hn2
      · refine ⟨1, ?_, ?_⟩
        · intro i hi
          have hz : i = 0 := by omega
          rw [hz]
          exact hkind
        · show ((atPos src (p + 1)).next_token).2 = doneLex src
          exact hdone

theorem concatUpto_succ (l : Lexer) (n : Nat) :
    concatUpto l (n + 1) = ((l.next_token).1).text ++ concatUpto ((l.next_token).2) n := by
  rw [concatUpto, concatUpto, List.range_succ_eq_map, List.map_cons, List.flatten_cons,
    List.map_map]
  rfl

theorem slice_append (src : List Nat) (p q : Nat) (h : p ≤ q) :
    (src.take q).drop p ++ src.drop q = src.drop p := by
  have h1 : (src.take q).drop p = (src.drop p).take (q - p) := List.drop_take q p src
  have h2 : src.drop q = (src.drop p).drop (q - p) := by
    rw [List.drop_drop]
    congr 1
    omega
  rw [h1, h2, List.take_append_drop]

/-- The tiling run: on a NUL-free, quote-free, hash-free input the texts of
the tokens before end-of-file concatenate to the remaining input. -/
theorem lexRunTile (src : List Nat) (h0 : 0 ∉ src) (h34 : 34 ∉ src) (h35 : 35 ∉ src) :
    ∀ k p, p < src.length → src.length - p ≤ k →
      ∃ n, (∀ i, i < n → (tokenAt (atPos src (p + 1)) i).kind ≠ Kind.EndOfFile) ∧
        lexState (atPos src (p + 1)) n = doneLex src ∧
        concatUpto (atPos src (p + 1)) n = src.drop p := by
  intro k
  induction k with
  | zero => intro p hp hf; omega
  | succ k ih =>
      intro p hp hf
      obtain ⟨hkind, q, hq1, hq2, htext, hcase⟩ := next_token_tile src p h0 h34 h35 hp
      rcases hcase with ⟨hlt, heq⟩ | ⟨hq, heq⟩
      · obtain ⟨n, hn1, hn2, hn3⟩ := ih q hlt (by omega)
        refine ⟨n + 1, ?_, ?_, ?_⟩
        · intro i hi
          cases i with
          | zero => exact hkind
          | succ i =>
              show (tokenAt ((atPos src (p + 1)).next_token).2 i).kind ≠ Kind.EndOfFile
              rw [heq]
              exact hn1 i (by omega)
        · show lexState ((atPos src (p + 1)).next_token).2 n = doneLex src
          rw [heq]
          exact hn2
        · rw [concatUpto_succ, htext, heq, hn3]
          exact slice_append src p q (by omega)
      · refine ⟨1, ?_, ?_, ?_⟩
        · intro i hi
          have hz : i = 0 := by omega
          rw [hz]
          exact hkind
        · show ((atPos src (p + 1)).next_token).2 = doneLex src
          exact heq
        · rw [concatUpto_succ, htext]
          have hdone : concatUpto ((atPos src (p + 1)).next_token).2 0 = [] := rfl
          rw [heq] at hdone
          rw [heq, hdone, List.append_nil, hq, List.take_length]

theorem byteAt_cons_succ (a : Nat) (t : List Nat) (i : Nat) :
    byteAt (a :: t) (i + 1) = byteAt t i := rfl

theorem byteAt_append_left (l1 l2 : List Nat) (i : Nat) (h : i < l1.length) :
    byteAt (l1 ++ l2) i = byteAt l1 i := by
  simp [byteAt, List.getD, List.getElem?_append_left h]

theorem byteAt_append_right (l1 l2 : List Nat) (i : Nat) (h : l1.length ≤ i) :
    byteAt (l1 ++ l2) i = byteAt l2 (i - l1.length) := by
  simp [byteAt, List.getD, List.getElem?_append_right h]

/-- The comment loop stops exactly at the first newline: if the bytes from
q up to j are neither newline nor NUL and the byte at j is the newline, the
loop lands on the canonical state at j. -/
theorem commentLoop_finds (src : List Nat) :
    ∀ fuel q j, q ≤ j → j < src.length → byteAt src j = 10 →
      (∀ i, q ≤ i → i < j → byteAt src i ≠ 10 ∧ byteAt src i ≠ 0) →
      j - q < fuel →
      commentLoop fuel (atPos src q) = some (atPos src j) := by
  intro fuel
  induction fuel with
  | zero => intro q j _ _ _ _ hf; omega
  | succ fuel ih =>
      intro q j hqj hjlt hj hmid hf
      by_cases hq : q = j
      · subst hq
        rw [commentLoop, if_pos (by rw [peek_atPos]; exact hj)]
      · have hqj' : q < j := by omega
        have hq10 : byteAt src q ≠ 10 := (hmid q (le_refl q) hqj').1
        have hqlt : q < src.length := by omega
        rw [commentLoop, if_neg (by rw [peek_atPos]; exact hq10), step_atPos src q hqlt]
        have hpk : (atPos src (q + 1)).peek_char = byteAt src (q + 1) := peek_atPos src (q + 1)
        have hq1 : byteAt src (q + 1) ≠ 0 := by
          by_cases he : q + 1 = j
          · rw [he, hj]; omega
          · exact (hmid (q + 1) (by omega) (by omega)).2
        rw [if_neg (by rw [hpk]; exact hq1)]
        exact ih (q + 1) j (by omega) hjlt hj (fun i hi1 hi2 => hmid i (by omega) hi2) (by omega)

/-- Reading a token at a hash byte that is followed by a newline-terminated
comment body: one Comment token covering the hash and the body but not the
newline, and the lexer steps past the newline. -/
theorem hash_newline_read (body rest : List Nat) (h0b : 0 ∉ body) (h10b : 10 ∉ body) :
    (atPos (35 :: body ++ 10 :: rest) 1).read_token =
      (⟨35 :: body, 0, Kind.Comment⟩, atPos (35 :: body ++ 10 :: rest) (body.length + 2)) := by
  set src := 35 :: body ++ 10 :: rest with hsrc
  have hlen : src.length = body.length + rest.length + 2 := by simp [hsrc]; omega
  have hb0 : byteAt src 0 = 35 := rfl
  have hj : byteAt src (body.length + 1) = 10 := by
    show byteAt (35 :: (body ++ 10 :: rest)) (body.length + 1) = 10
    rw [byteAt_cons_succ, byteAt_append_right body (10 :: rest) body.length (le_refl _),
      Nat.sub_self]
    rfl
  have hmid : ∀ i, 1 ≤ i → i < body.length + 1 → byteAt src i ≠ 10 ∧ byteAt src i ≠ 0 := by
    intro i h1 h2
    obtain ⟨i', rfl⟩ : ∃ i', i = i' + 1 := ⟨i - 1, by omega⟩
    have he : byteAt src (i' + 1) = byteAt body i' := by
      show byteAt (35 :: (body ++ 10 :: rest)) (i' + 1) = byteAt body i'
      rw [byteAt_cons_succ, byteAt_append_left body _ i' (by omega)]
    have hm : byteAt body i' ∈ body := byteAt_mem body i' (by omega)
    rw [he]
    exact ⟨fun e => h10b (e ▸ hm), fun e => h0b (e ▸ hm)⟩
  have hjlt : body.length + 1 < src.length := by omega
  have hloop := commentLoop_finds src (src.length + 1) 1 (body.length + 1) (by omega) hjlt hj
    (fun i hi1 hi2 => hmid i hi1 hi2) (by omega)
  have hbz : (atPos src 1).byte ≠ 0 := by
    show byteAt src 0 ≠ 0
    rw [hb0]; omega
  have hws0 : (atPos src 1).maybe_read_whitespace = (none, atPos src 1) := by
    have h := ws_none src 0 (by rw [hb0]; decide)
    simp only [Nat.zero_add] at h
    exact h
  have htake : src.take (body.length + 1) = 35 :: body := by
    show (35 :: (body ++ 10 :: rest)).take (body.length + 1) = 35 :: body
    rw [List.take_succ_cons, List.take_left]
  have hcom : (atPos src 1).maybe_read_comment =
      (some ⟨35 :: body, 0, Kind.Comment⟩, atPos src (body.length + 2)) := by
    simp only [Lexer.maybe_read_comment]
    rw [if_pos (show (atPos src 1).byte = 35 from hb0)]
    rw [show (atPos src 1).input = src from rfl]
    rw [hloop]
    change (some ((atPos src (body.length + 1)).text_token 0 Kind.Comment),
      (atPos src (body.length + 1)).step) = _
    rw [step_atPos src (body.length + 1) hjlt, text_token_atPos, List.drop_zero, htake]
  simp only [Lexer.read_token, if_neg hbz, hws0, hcom]

/-- Reading a token at a hash byte on a NUL-free input with no newline
anywhere: the comment attempt rewinds and the whole remaining input becomes
one catch-all Unknown token. -/
theorem hash_no_newline_read (src : List Nat) (h0 : 0 ∉ src) (h10 : 10 ∉ src)
    (h35head : byteAt src 0 = 35) (hlen : 0 < src.length) :
    (atPos src 1).read_token = (⟨src, 0, Kind.Unknown⟩, doneLex src) := by
  have hbz : (atPos src 1).byte ≠ 0 := by
    show byteAt src 0 ≠ 0
    rw [h35head]; omega
  have hws0 : (atPos src 1).maybe_read_whitespace = (none, atPos src 1) := by
    have h := ws_none src 0 (by rw [h35head]; decide)
    simp only [Nat.zero_add] at h
    exact h
  have hcom : (atPos src 1).maybe_read_comment = (none, atPos src 1) := by
    rcases commentLoop_total src (src.length + 1) 1 (by omega) (by omega) with
      ⟨j, hj1, hj2, hj3, hj4⟩ | hnone
    · exact absurd (hj3 ▸ byteAt_mem src j hj2) h10
    · simp only [Lexer.maybe_read_comment]
      rw [if_pos (show (atPos src 1).byte = 35 from h35head)]
      rw [show (atPos src 1).input = src from rfl]
      rw [hnone]
      change (none, (atPos src 1).reset 0) = _
      rw [reset_eq (atPos src 1) 0 src rfl]
  have hsym0 : (atPos src 1).maybe_read_symbol = (none, atPos src 1) := by
    have h := sym_none src 0 (by rw [h35head]; decide)
    simp only [Nat.zero_add] at h
    exact h
  have hkw0 : (atPos src 1).maybe_read_keyword = (none, atPos src 1) := by
    have h := kw_none src 0 (by rw [h35head]; decide)
    simp only [Nat.zero_add] at h
    exact h
  have hstr0 : (atPos src 1).maybe_read_string = (none, atPos src 1) := by
    have h := str_none src 0 (by rw [h35head]; omega)
    simp only [Nat.zero_add] at h
    exact h
  have hint0 : (atPos src 1).maybe_read_integer = (none, atPos src 1) := by
    have h := int_none src 0 (by rw [h35head]; decide)
    simp only [Nat.zero_add] at h
    exact h
  have hid0 : (atPos src 1).maybe_read_identifier = (none, atPos src 1) := by
    have h := ident_none src 0 (by rw [h35head]; decide)
    simp only [Nat.zero_add] at h
    exact h
  have hpos : (atPos src 1).position = 0 := rfl
  have hin : (atPos src 1).input = src := rfl
  simp only [Lexer.read_token, if_neg hbz, hws0, hcom, hsym0, hkw0, hstr0, hint0, hid0,
    hpos, hin]
  rw [unknownLoop_atPos src h0 (src.length + 1) 1 (by omega) (by omega) (by omega),
    text_token_done, List.drop_zero]

theorem new_nil : Lexer.new [] = doneLex [] := rfl

theorem new_cons (src : List Nat) (h : src ≠ []) : Lexer.new src = atPos src 1 := by
  cases src with
  | nil => exact absurd rfl h
  | cons a t => rfl

/-- The lexing run from Lexer.new on a NUL-free input: some number n of
non-end-of-file tokens, then the end-of-file token with empty text at
offset length - 1, repeated forever. -/
theorem lexNew_run (src : List Nat) (h0 : 0 ∉ src) :
    ∃ n, (∀ i, i < n → (tokenAt (Lexer.new src) i).kind ≠ Kind.EndOfFile) ∧
      ∀ m, n ≤ m → tokenAt (Lexer.new src) m = ⟨[], src.length - 1, Kind.EndOfFile⟩ := by
  by_cases hsrc : src = []
  · subst hsrc
    refine ⟨0, fun i hi => absurd hi (by omega), fun m _ => ?_⟩
    rw [new_nil, tokenAt_done]
  · have hlen : 0 < src.length := List.length_pos.mpr hsrc
    obtain ⟨n, hn1, hn2⟩ := lexRun src h0 src.length 0 hlen (by omega)
    simp only [Nat.zero_add] at hn1 hn2
    rw [← new_cons src hsrc] at hn1 hn2
    refine ⟨n, hn1, fun m hm => ?_⟩
    have hsplit : m = n + (m - n) := by omega
    rw [hsplit]
    show ((lexState (Lexer.new src) (n + (m - n))).next_token).1 = _
    rw [lexState_add, hn2, lexState_done, next_token_done]

/-- The tiling run from Lexer.new: on a NUL-free, quote-free, hash-free
input the texts of the tokens before the end-of-file token concatenate to
the input. -/
theorem lexNew_tile (src : List Nat) (h0 : 0 ∉ src) (h34 : 34 ∉ src) (h35 : 35 ∉ src) :
    ∃ n, (∀ i, i < n → (tokenAt (Lexer.new src) i).kind ≠ Kind.EndOfFile) ∧
      (tokenAt (Lexer.new src) n).kind = Kind.EndOfFile ∧
      concatUpto (Lexer.new src) n = src := by
  by_cases hsrc : src = []
  · subst hsrc
    refine ⟨0, fun i hi => absurd hi (by omega), ?_, rfl⟩
    rw [new_nil, tokenAt_done]
  · have hlen : 0 < src.length := List.length_pos.mpr hsrc
    obtain ⟨n, hn1, hn2, hn3⟩ := lexRunTile src h0 h34 h35 src.length 0 hlen (by omega)
    simp only [Nat.zero_add] at hn1 hn2 hn3
    rw [← new_cons src hsrc] at hn1 hn2 hn3
    refine ⟨n, hn1, ?_, ?_⟩
    · show ((lexState (Lexer.new src) n).next_token).1.kind = Kind.EndOfFile
      rw [hn2, next_token_done]
    · rw [hn3, List.drop_zero]

/-- C1 (counterexample): for the input consisting of a hash byte and a
newline, the lexer yields exactly one token before end-of-file, the Comment
token, and concatenating the texts of the tokens before end-of-file gives
only the hash byte: the newline is lost, so the round-trip property fails
as stated. -/
theorem C1_roundtrip_counterexample :
    (tokenAt (Lexer.new (bytes "#\n")) 0).kind = Kind.Comment ∧
      (tokenAt (Lexer.new (bytes "#\n")) 1).kind = Kind.EndOfFile ∧
      concatUpto (Lexer.new (bytes "#\n")) 1 ≠ bytes "#\n" := by decide

/-- C1 (amended): for every input containing no NUL byte (0), no double
quote (34) and no hash (35), concatenating the text of every token the
lexer returns before the end-of-file token reconstructs the input exactly.
(Comment tokens drop their terminating newline and string tokens drop their
quotes, so inputs that can form those tokens are excluded; a NUL byte makes
the lexer emit end-of-file early.) -/
theorem C1_roundtrip_amended (src : List Nat) (h0 : 0 ∉ src) (h34 : 34 ∉ src)
    (h35 : 35 ∉ src) :
    ∃ n, (∀ i, i < n → (tokenAt (Lexer.new src) i).kind ≠ Kind.EndOfFile) ∧
      (tokenAt (Lexer.new src) n).kind = Kind.EndOfFile ∧
      concatUpto (Lexer.new src) n = src :=
  lexNew_tile src h0 h34 h35

/-- Witness for C1_roundtrip_amended at the concrete input "let x = 5". -/
theorem C1_roundtrip_amended_witness :
    ∃ n, (∀ i, i < n → (tokenAt (Lexer.new (bytes "let x = 5")) i).kind ≠ Kind.EndOfFile) ∧
      (tokenAt (Lexer.new (bytes "let x = 5")) n).kind = Kind.EndOfFile ∧
      concatUpto (Lexer.new (bytes "let x = 5")) n = bytes "let x = 5" :=
  C1_roundtrip_amended (bytes "let x = 5") (by decide) (by decide) (by decide)

/-- C2 (counterexample): for the input "a", NUL, "b" — a valid Rust string —
the second call of next_token returns end-of-file, but the third call
returns an Identifier token again, so it is not true that after the first
end-of-file every further call keeps returning end-of-file. -/
theorem C2_totality_counterexample :
    (tokenAt (Lexer.new [97, 0, 98]) 1).kind = Kind.EndOfFile ∧
      (tokenAt (Lexer.new [97, 0, 98]) 2).kind = Kind.Identifier ∧
      Kind.Identifier ≠ Kind.EndOfFile := by decide

/-- C2 (amended): for any input containing no NUL byte (including the empty
input), repeatedly calling next_token always terminates in exactly one
end-of-file token: there is an n with the first n tokens not end-of-file
and every call from the (n+1)-st on returning the same end-of-file token.
Lexing never fails (next_token is a total function). -/
theorem C2_totality_amended (src : List Nat) (h0 : 0 ∉ src) :
    ∃ n, (∀ i, i < n → (tokenAt (Lexer.new src) i).kind ≠ Kind.EndOfFile) ∧
      ∀ m, n ≤ m → tokenAt (Lexer.new src) m = ⟨[], src.length - 1, Kind.EndOfFile⟩ :=
  lexNew_run src h0

/-- Witness for C2_totality_amended at the concrete input "fn five". -/
theorem C2_totality_amended_witness :
    ∃ n, (∀ i, i < n → (tokenAt (Lexer.new (bytes "fn five")) i).kind ≠ Kind.EndOfFile) ∧
      ∀ m, n ≤ m →
        tokenAt (Lexer.new (bytes "fn five")) m = ⟨[], (bytes "fn five").length - 1, Kind.EndOfFile⟩ :=
  C2_totality_amended (bytes "fn five") (by decide)

/-- C3 (counterexample): for the one-byte input "a" the end-of-file token
has offset 0, not the source length 1: Lexer::step does not advance
`position` at the end of the input, so the offset handed to
Token::end_of_file is the index of the last byte, not the length. -/
theorem C3_eof_position_counterexample :
    (tokenAt (Lexer.new (bytes "a")) 1).kind = Kind.EndOfFile ∧
      (tokenAt (Lexer.new (bytes "a")) 1).offset = 0 ∧
      (bytes "a").length = 1 ∧ (0 : Nat) ≠ 1 := by decide

/-- C3 (amended): on any NUL-free input the lexing run produces, after its
non-end-of-file tokens, always the same end-of-file token: it carries empty
text and its offset is length - 1 (which is 0 for the empty input), not the
source length. -/
theorem C3_eof_token_amended (src : List Nat) (h0 : 0 ∉ src) :
    ∃ n, (∀ i, i < n → (tokenAt (Lexer.new src) i).kind ≠ Kind.EndOfFile) ∧
      ∀ m, n ≤ m → (tokenAt (Lexer.new src) m).kind = Kind.EndOfFile ∧
        (tokenAt (Lexer.new src) m).text = [] ∧
        (tokenAt (Lexer.new src) m).offset = src.length - 1 := by
  obtain ⟨n, h1, h2⟩ := lexNew_run src h0
  refine ⟨n, h1, fun m hm => ?_⟩
  rw [h2 m hm]
  exact ⟨rfl, rfl, rfl⟩

/-- Witness for C3_eof_token_amended at the concrete input "ab". -/
theorem C3_eof_token_amended_witness :
    ∃ n, (∀ i, i < n → (tokenAt (Lexer.new (bytes "ab")) i).kind ≠ Kind.EndOfFile) ∧
      ∀ m, n ≤ m → (tokenAt (Lexer.new (bytes "ab")) m).kind = Kind.EndOfFile ∧
        (tokenAt (Lexer.new (bytes "ab")) m).text = [] ∧
        (tokenAt (Lexer.new (bytes "ab")) m).offset = (bytes "ab").length - 1 :=
  C3_eof_token_amended (bytes "ab") (by decide)

/-- C7: keyword and identifier boundary behavior: "int3" lexes as one
Identifier token (it is not in the keyword table), and "int32x" lexes as
one Identifier token, never as the keyword int32 followed by trailing
text; in both cases the next token is end-of-file. -/
theorem C7_keyword_boundary :
    tokenAt (Lexer.new (bytes "int3")) 0 = ⟨bytes "int3", 0, Kind.Identifier⟩ ∧
      (tokenAt (Lexer.new (bytes "int3")) 1).kind = Kind.EndOfFile ∧
      keywordLookup (bytes "int3") = none ∧
      tokenAt (Lexer.new (bytes "int32x")) 0 = ⟨bytes "int32x", 0, Kind.Identifier⟩ ∧
      (tokenAt (Lexer.new (bytes "int32x")) 1).kind = Kind.EndOfFile := by decide

/-- C10: the keyword scan's character class (Unicode alphanumeric) rejects
the underscore while the identifier scan's accepts it; hence for "let_x"
the lexer emits the keyword token "let" immediately followed by one Unknown
token with text "_x": the identifier rule cannot start at the underscore,
so the catch-all consumes the rest. -/
theorem C10_keyword_underscore_boundary :
    isAlphanumericChar 95 = false ∧ isIdentChar 95 = true ∧
      tokenAt (Lexer.new (bytes "let_x")) 0 = ⟨bytes "let", 0, Kind.Let⟩ ∧
      tokenAt (Lexer.new (bytes "let_x")) 1 = ⟨bytes "_x", 3, Kind.Unknown⟩ ∧
      (tokenAt (Lexer.new (bytes "let_x")) 2).kind = Kind.EndOfFile := by decide

/-- C8: comment behavior.  First conjunct: a hash followed by a newline-free
NUL-free body and a newline produces one Comment token whose text is the
hash and the body (the newline excluded), and the newline is consumed
separately: the lexer state after the first next_token call is the live
state just past the newline (position body.length + 2) when input remains,
and the exhausted state otherwise.  Second conjunct: when no newline occurs
before the end of input, the whole remainder becomes one Unknown token and
the next token is end-of-file.  Third conjunct: the spec's example
"# comment" without a newline is a single Unknown token. -/
theorem C8_comment_token_behavior :
    (∀ body rest : List Nat, 0 ∉ body → 10 ∉ body →
      tokenAt (Lexer.new (35 :: body ++ 10 :: rest)) 0 = ⟨35 :: body, 0, Kind.Comment⟩ ∧
        (rest ≠ [] → lexState (Lexer.new (35 :: body ++ 10 :: rest)) 1 =
          atPos (35 :: body ++ 10 :: rest) (body.length + 3)) ∧
        (rest = [] → lexState (Lexer.new (35 :: body ++ 10 :: rest)) 1 =
          doneLex (35 :: body ++ 10 :: rest))) ∧
    (∀ body : List Nat, 0 ∉ body → 10 ∉ body →
      tokenAt (Lexer.new (35 :: body)) 0 = ⟨35 :: body, 0, Kind.Unknown⟩ ∧
        tokenAt (Lexer.new (35 :: body)) 1 = ⟨[], (35 :: body).length - 1, Kind.EndOfFile⟩) ∧
    (tokenAt (Lexer.new (bytes "# comment")) 0 = ⟨bytes "# comment", 0, Kind.Unknown⟩ ∧
      (tokenAt (Lexer.new (bytes "# comment")) 1).kind = Kind.EndOfFile ∧
      tokenAt (Lexer.new (bytes "# comment\n")) 0 = ⟨bytes "# comment", 0, Kind.Comment⟩ ∧
      (tokenAt (Lexer.new (bytes "# comment\n")) 1).kind = Kind.EndOfFile) := by
  refine ⟨?_, ?_, by decide⟩
  · intro body rest h0b h10b
    have hne : (35 : Nat) :: body ++ 10 :: rest ≠ [] := by simp
    have hread := hash_newline_read body rest h0b h10b
    rw [new_cons _ hne]
    refine ⟨?_, ?_, ?_⟩
    · show ((atPos (35 :: body ++ 10 :: rest) 1).read_token).1 = _
      rw [hread]
    · intro hrest
      have hrlen : 0 < rest.length := List.length_pos.mpr hrest
      have hlt : body.length + 2 < (35 :: body ++ 10 :: rest).length := by
        simp [List.length_append]
        omega
      show ((atPos (35 :: body ++ 10 :: rest) 1).read_token).2.step = _
      rw [hread]
      exact step_atPos _ _ hlt
    · intro hrest
      subst hrest
      have hq : (35 :: body ++ 10 :: ([] : List Nat)).length = body.length + 2 := by simp
      show ((atPos (35 :: body ++ 10 :: ([] : List Nat)) 1).read_token).2.step = _
      rw [hread, ← hq]
      exact step_atPos_end _
  · intro body h0b h10b
    have h0s : (0 : Nat) ∉ 35 :: body := by
      intro h
      rcases List.mem_cons.mp h with h | h
      · omega
      · exact h0b h
    have h10s : (10 : Nat) ∉ 35 :: body := by
      intro h
      rcases List.mem_cons.mp h with h | h
      · omega
      · exact h10b h
    have hne : (35 : Nat) :: body ≠ [] := by simp
    have hread := hash_no_newline_read (35 :: body) h0s h10s rfl (by simp)
    rw [new_cons _ hne]
    refine ⟨?_, ?_⟩
    · show ((atPos ((35 : Nat) :: body) 1).read_token).1 = _
      rw [hread]
    · have hstate : ((atPos ((35 : Nat) :: body) 1).next_token).2 = doneLex (35 :: body) := by
        show ((atPos ((35 : Nat) :: body) 1).read_token).2.step = _
        rw [hread, step_done]
      show tokenAt ((atPos ((35 : Nat) :: body) 1).next_token).2 0 = _
      rw [hstate]
      exact tokenAt_done _ 0

/-- Witness for C8_comment_token_behavior: the first conjunct applied to
the body of "# comment" with empty rest. -/
theorem C8_comment_token_behavior_witness :
    tokenAt (Lexer.new (35 :: bytes " comment" ++ 10 :: [])) 0 =
      ⟨35 :: bytes " comment", 0, Kind.Comment⟩ :=
  (C8_comment_token_behavior.1 (bytes " comment") [] (by decide) (by decide)).1

theorem skipWhitespace_tokens : ∀ (fuel : Nat) (p : Parser),
    (skipWhitespace fuel p).tokens = p.tokens := by
  intro fuel
  induction fuel with
  | zero => intro p; rfl
  | succ fuel ih =>
      intro p
      rw [skipWhitespace]
      split
      · rw [ih]
      · rfl

theorem step_tokens (p : Parser) : p.step.tokens = p.tokens := by
  rw [Parser.step]
  split
  · rfl
  · rw [skipWhitespace_tokens]

/-- Resetting any intermediate state (with the same token sequence) to the
entry position reproduces the entry state exactly, because the cursor
invariant read_position = position + 1 holds at every rule entry. -/
theorem reset_entry (q p : Parser) (hInv : p.read_position = p.position + 1)
    (htok : q.tokens = p.tokens) : q.reset p.position = p := by
  cases p with
  | mk t pos rp =>
      show q.reset pos = ⟨t, pos, rp⟩
      have h1 : q.reset pos = ⟨q.tokens, pos, pos + 1⟩ := rfl
      have h2 : rp = pos + 1 := hInv
      rw [h1, htok, h2]

/-- A failed let-statement attempt restores the entry state exactly. -/
theorem let_stmt_reset (p : Parser) (e : String) (p1 : Parser)
    (hInv : p.read_position = p.position + 1)
    (h : p.try_parse_let_stmt = some (Except.error e, p1)) : p1 = p := by
  unfold Parser.try_parse_let_stmt at h
  dsimp only at h
  repeat' split at h
  all_goals simp only [Option.some.injEq, Prod.mk.injEq, Except.error.injEq,
    reduceCtorEq, false_and, and_false] at h
  all_goals rw [← h.2]
  all_goals exact reset_entry _ _ hInv (by simp [step_tokens])

/-- A failed binary-expression attempt restores the entry state exactly. -/
theorem binary_reset (p : Parser) (e : String) (p1 : Parser)
    (hInv : p.read_position = p.position + 1)
    (h : p.try_parse_binary_expression = (Except.error e, p1)) : p1 = p := by
  unfold Parser.try_parse_binary_expression at h
  dsimp only at h
  repeat' split at h
  all_goals simp only [Prod.mk.injEq, Except.error.injEq, reduceCtorEq, false_and,
    and_false] at h
  all_goals rw [← h.2]
  all_goals exact reset_entry _ _ hInv (by simp [step_tokens])

/-- A failed function-declaration attempt restores the entry state exactly. -/
theorem function_reset (p : Parser) (e : String) (p1 : Parser)
    (hInv : p.read_position = p.position + 1)
    (h : p.try_parse_function = some (Except.error e, p1)) : p1 = p := by
  unfold Parser.try_parse_function at h
  dsimp only at h
  repeat' split at h
  all_goals simp only [Option.some.injEq, Prod.mk.injEq, Except.error.injEq,
    reduceCtorEq, false_and, and_false] at h
  all_goals rw [← h.2]
  all_goals exact reset_entry _ _ hInv (by simp [step_tokens])

theorem skipWs_spec : ∀ (fuel : Nat) (p : Parser),
    p.read_position = p.position + 1 → p.position < p.tokens.length →
    StepOk p (skipWhitespace fuel p) := by
  intro fuel
  induction fuel with
  | zero => intro p hInv hpos; exact ⟨rfl, hInv, le_refl _, hpos⟩
  | succ fuel ih =>
      intro p hInv hpos
      rw [skipWhitespace]
      split
      case isTrue hcond =>
        have hlt : p.read_position < p.tokens.length := hcond.2
        obtain ⟨h1, h2, h3, h4⟩ :=
          ih { p with position := p.read_position, read_position := p.read_position + 1 } rfl hlt
        refine ⟨h1, h2, ?_, h4⟩
        have : p.position ≤ p.read_position := by omega
        exact le_trans this h3
      case isFalse => exact ⟨rfl, hInv, le_refl _, hpos⟩

theorem step_spec (p : Parser) (hInv : p.read_position = p.position + 1)
    (hpos : p.position < p.tokens.length) :
    (StepOk p p.step ∧ p.position ≤ p.step.position) ∧
      (p.position + 1 < p.tokens.length → p.position < p.step.position) := by
  rw [Parser.step]
  split
  case isTrue hge =>
    exact ⟨⟨⟨rfl, hInv, le_refl _, hpos⟩, le_refl _⟩, fun hlt => by omega⟩
  case isFalse hlt' =>
    have hrp : p.read_position < p.tokens.length := by omega
    obtain ⟨h1, h2, h3, h4⟩ :=
      skipWs_spec p.tokens.length ⟨p.tokens, p.read_position, p.read_position + 1⟩ rfl hrp
    have hmono : p.position ≤ (skipWhitespace p.tokens.length
        (⟨p.tokens, p.read_position, p.read_position + 1⟩ : Parser)).position := by
      have : p.position ≤ p.read_position := by omega
      exact le_trans this h3
    exact ⟨⟨⟨h1, h2, hmono, h4⟩, hmono⟩, fun _ => by
      have : p.position < p.read_position := by omega
      exact lt_of_lt_of_le this h3⟩

theorem stepOk_step (p q : Parser) (h : StepOk p q) :
    StepOk p q.step ∧ q.position ≤ q.step.position := by
  obtain ⟨h1, h2, h3, h4⟩ := h
  have hq : q.position < q.tokens.length := by rw [h1]; exact h4
  obtain ⟨⟨⟨g1, g2, g3, g4⟩, gm⟩, _⟩ := step_spec q h2 hq
  refine ⟨⟨?_, g2, le_trans h3 g3, ?_⟩, gm⟩
  · rw [g1, h1]
  · rw [← h1]; exact g4

theorem ruleOk_step (p q : Parser) (h : RuleOk p q) : RuleOk p q.step := by
  obtain ⟨hok, hstr⟩ := h
  obtain ⟨hok', hmono⟩ := stepOk_step p q hok
  exact ⟨hok', lt_of_lt_of_le hstr hmono⟩

theorem pos_succ_lt (p : Parser) (hpos : p.position < p.tokens.length)
    (hlast : (p.tokens.getLast?).map Token.kind = some Kind.EndOfFile)
    (hk : (p.token).kind ≠ Kind.EndOfFile) : p.position + 1 < p.tokens.length := by
  by_contra hge
  have hlen : p.position = p.tokens.length - 1 := by omega
  have h1 : p.tokens.getLast? = p.tokens[p.tokens.length - 1]? :=
    List.getLast?_eq_getElem? p.tokens
  have h2 : p.tokens[p.tokens.length - 1]? = some p.tokens[p.tokens.length - 1] :=
    List.getElem?_eq_getElem (by omega)
  rw [h1, h2] at hlast
  simp only [Option.map_some', Option.some.injEq] at hlast
  have h3 : p.token = p.tokens[p.tokens.length - 1] := by
    show p.tokens.getD p.position _ = _
    simp [List.getD, hlen, h2]
  exact hk (by rw [h3]; exact hlast)

/-- The first step of a rule whose entry token is not end-of-file advances
the position strictly. -/
theorem rule_first_step (p : Parser) (hInv : p.read_position = p.position + 1)
    (hpos : p.position < p.tokens.length)
    (hlast : (p.tokens.getLast?).map Token.kind = some Kind.EndOfFile)
    (hk : (p.token).kind ≠ Kind.EndOfFile) : RuleOk p p.step := by
  have hlt := pos_succ_lt p hpos hlast hk
  obtain ⟨⟨hok, _⟩, hstr⟩ := step_spec p hInv hpos
  exact ⟨hok, hstr hlt⟩

/-- A successful let-statement parse strictly advances the cursor and keeps
it in bounds. -/
theorem let_stmt_ok (p : Parser) (s : Statement) (p1 : Parser)
    (hInv : p.read_position = p.position + 1) (hpos : p.position < p.tokens.length)
    (hlast : (p.tokens.getLast?).map Token.kind = some Kind.EndOfFile)
    (h : p.try_parse_let_stmt = some (Except.ok s, p1)) : RuleOk p p1 := by
  unfold Parser.try_parse_let_stmt at h
  dsimp only at h
  repeat' split at h
  all_goals simp only [Option.some.injEq, Prod.mk.injEq, Except.ok.injEq, reduceCtorEq,
    false_and, and_false] at h
  all_goals rw [← h.2]
  all_goals
    have hfirst : RuleOk p p.step := by
      refine rule_first_step p hInv hpos hlast ?_
      intro e
      simp_all
  all_goals first
    | exact ruleOk_step _ _ (ruleOk_step _ _ (ruleOk_step _ _ (ruleOk_step _ _ (ruleOk_step _ _ (ruleOk_step _ _ (ruleOk_step _ _ hfirst))))))
    | exact ruleOk_step _ _ (ruleOk_step _ _ (ruleOk_step _ _ (ruleOk_step _ _ (ruleOk_step _ _ (ruleOk_step _ _ hfirst)))))

/-- A successful binary-expression parse strictly advances the cursor and
keeps it in bounds. -/
theorem binary_ok (p : Parser) (s : Statement) (p1 : Parser)
    (hInv : p.read_position = p.position + 1) (hpos : p.position < p.tokens.length)
    (hlast : (p.tokens.getLast?).map Token.kind = some Kind.EndOfFile)
    (h : p.try_parse_binary_expression = (Except.ok s, p1)) : RuleOk p p1 := by
  unfold Parser.try_parse_binary_expression at h
  dsimp only at h
  repeat' split at h
  all_goals simp only [Prod.mk.injEq, Except.ok.injEq, reduceCtorEq, false_and,
    and_false] at h
  all_goals rw [← h.2]
  all_goals
    have hfirst : RuleOk p p.step := by
      refine rule_first_step p hInv hpos hlast ?_
      intro e
      simp_all
  all_goals
    exact ruleOk_step _ _ (ruleOk_step _ _ (ruleOk_step _ _ hfirst))

/-- A successful function-declaration parse strictly advances the cursor
and keeps it in bounds. -/
theorem function_ok (p : Parser) (s : Statement) (p1 : Parser)
    (hInv : p.read_position = p.position + 1) (hpos : p.position < p.tokens.length)
    (hlast : (p.tokens.getLast?).map Token.kind = some Kind.EndOfFile)
    (h : p.try_parse_function = some (Except.ok s, p1)) : RuleOk p p1 := by
  unfold Parser.try_parse_function at h
  dsimp only at h
  repeat' split at h
  all_goals simp only [Option.some.injEq, Prod.mk.injEq, Except.ok.injEq, reduceCtorEq,
    false_and, and_false] at h
  all_goals rw [← h.2]
  all_goals
    have hfirst : RuleOk p p.step := by
      refine rule_first_step p hInv hpos hlast ?_
      intro e
      simp_all
  all_goals
    exact ruleOk_step _ _ (ruleOk_step _ _ (ruleOk_step _ _ (ruleOk_step _ _ (ruleOk_step _ _ (ruleOk_step _ _ hfirst)))))

/-- The let rule's entry assertion holds whenever the dispatcher calls it. -/
theorem let_stmt_ne_none (p : Parser) (hk : (p.token).kind = Kind.Let) :
    p.try_parse_let_stmt ≠ none := by
  unfold Parser.try_parse_let_stmt
  dsimp only
  rw [if_neg (show ¬ ((p.token).kind ≠ Kind.Let) from fun hc => hc hk)]
  repeat' split
  all_goals simp

/-- The function rule's entry assertion holds whenever the dispatcher calls
it. -/
theorem function_ne_none (p : Parser) (hk : (p.token).kind = Kind.Fn) :
    p.try_parse_function ≠ none := by
  unfold Parser.try_parse_function
  dsimp only
  rw [if_neg (show ¬ ((p.token).kind ≠ Kind.Fn) from fun hc => hc hk)]
  repeat' split
  all_goals simp

/-- The statement dispatcher: never a fired assertion (the dispatch
guarantees each rule's entry assertion), and a successful statement
strictly advances the cursor within bounds. -/
theorem read_statement_spec (p : Parser) (hInv : p.read_position = p.position + 1)
    (hpos : p.position < p.tokens.length)
    (hlast : (p.tokens.getLast?).map Token.kind = some Kind.EndOfFile) :
    p.read_statement ≠ none ∧
      ∀ s p1, p.read_statement = some (Except.ok s, p1) → RuleOk p p1 := by
  unfold Parser.read_statement
  by_cases h1 : p.token.kind = Kind.Let
  · rw [if_pos h1]
    exact ⟨let_stmt_ne_none p h1, fun s p1 h => let_stmt_ok p s p1 hInv hpos hlast h⟩
  · rw [if_neg h1]
    by_cases h2 : p.token.kind = Kind.Identifier
    · rw [if_pos h2]
      refine ⟨by simp, fun s p1 h => ?_⟩
      simp only [Option.some.injEq] at h
      exact binary_ok p s p1 hInv hpos hlast h
    · rw [if_neg h2]
      by_cases h3 : p.token.kind = Kind.IntegerLiteral
      · rw [if_pos h3]
        refine ⟨by simp, fun s p1 h => ?_⟩
        simp only [Option.some.injEq] at h
        exact binary_ok p s p1 hInv hpos hlast h
      · rw [if_neg h3]
        by_cases h4 : p.token.kind = Kind.Fn
        · rw [if_pos h4]
          exact ⟨function_ne_none p h4, fun s p1 h => function_ok p s p1 hInv hpos hlast h⟩
        · rw [if_neg h4]
          refine ⟨by simp, fun s p1 h => ?_⟩
          simp at h

theorem next_stmt_spec (p : Parser) (hInv : p.read_position = p.position + 1)
    (hpos : p.position < p.tokens.length)
    (hlast : (p.tokens.getLast?).map Token.kind = some Kind.EndOfFile) :
    p.next_stmt ≠ none ∧
      ∀ s p1, p.next_stmt = some (Except.ok s, p1) → RuleOk p p1 := by
  obtain ⟨hne, hok⟩ := read_statement_spec p hInv hpos hlast
  unfold Parser.next_stmt
  cases hrs : p.read_statement with
  | none => exact absurd hrs hne
  | some v =>
      obtain ⟨res, q⟩ := v
      cases res with
      | ok s0 =>
          refine ⟨by simp, fun s p1 h => ?_⟩
          simp only [Option.some.injEq, Prod.mk.injEq] at h
          rw [← h.2]
          exact (ruleOk_step p q (hok s0 q hrs))
      | error e =>
          refine ⟨by simp, fun s p1 h => ?_⟩
          simp at h

/-- With fuel at least tokens.length - position + 1, the parse loop never
returns the fired-assertion/fuel marker: every iteration either finishes,
fails with a syntax error, or strictly advances the position. -/
theorem parseLoop_ne_none : ∀ (fuel : Nat) (p : Parser) (acc : List Statement),
    p.read_position = p.position + 1 → p.position < p.tokens.length →
    (p.tokens.getLast?).map Token.kind = some Kind.EndOfFile →
    p.tokens.length - p.position ≤ fuel →
    parseLoop fuel p acc ≠ none := by
  intro fuel
  induction fuel with
  | zero => intro p acc hInv hpos hlast hf; omega
  | succ fuel ih =>
      intro p acc hInv hpos hlast hf
      rw [parseLoop]
      split
      · simp
      · obtain ⟨hne, hok⟩ := next_stmt_spec p hInv hpos hlast
        cases hns : p.next_stmt with
        | none => exact absurd hns hne
        | some v =>
            obtain ⟨res, p1⟩ := v
            cases res with
            | error e => simp
            | ok s =>
                have hr : RuleOk p p1 := hok s p1 hns
                obtain ⟨⟨ht1, ht2, ht3, ht4⟩, hstr⟩ := hr
                obtain ⟨⟨g1, g2, g3, g4⟩, gm⟩ := stepOk_step p p1 ⟨ht1, ht2, ht3, ht4⟩
                refine ih p1.step (s :: acc) g2 ?_ ?_ ?_
                · rw [g1]; exact g4
                · rw [g1]; exact hlast
                · rw [g1]
                  have : p.position < p1.step.position := lt_of_lt_of_le hstr gm
                  omega

/-- Parser::new under the documented precondition: the constructed state
has the cursor invariant, an in-bounds position, and the same tokens. -/
theorem new_spec (toks : List Token) (t : Token) (hlast : toks.getLast? = some t)
    (hk : t.kind = Kind.EndOfFile) :
    ∃ p0, Parser.new toks = some p0 ∧ p0.tokens = toks ∧
      p0.read_position = p0.position + 1 ∧ p0.position < toks.length := by
  have hlen : 0 < toks.length := by
    cases toks with
    | nil => simp at hlast
    | cons a l => simp
  unfold Parser.new
  simp only [hlast]
  rw [if_pos hk]
  have h0 : (⟨toks, 0, 0⟩ : Parser).step =
      skipWhitespace toks.length ⟨toks, 0, 1⟩ := by
    rw [Parser.step]
    rw [if_neg (show ¬ ((⟨toks, 0, 0⟩ : Parser).tokens.length ≤
        (⟨toks, 0, 0⟩ : Parser).read_position) from by
      show ¬ (toks.length ≤ 0)
      omega)]
  obtain ⟨g1, g2, g3, g4⟩ := skipWs_spec toks.length ⟨toks, 0, 1⟩ rfl hlen
  refine ⟨_, rfl, ?_, ?_, ?_⟩
  · rw [h0]; exact g1
  · rw [h0]; exact g2
  · rw [h0]; exact g4

/-- Under the documented precondition (the sequence ends in an end-of-file
token), parse_program never hits a fired assertion or exhausted fuel. -/
theorem parse_program_ne_none (toks : List Token)
    (hlast : (toks.getLast?).map Token.kind = some Kind.EndOfFile) :
    Parser.parse_program toks ≠ none := by
  obtain ⟨t, ht, hk⟩ : ∃ t, toks.getLast? = some t ∧ t.kind = Kind.EndOfFile := by
    cases hgl : toks.getLast? with
    | none => rw [hgl] at hlast; simp at hlast
    | some t =>
        rw [hgl] at hlast
        simp only [Option.map_some', Option.some.injEq] at hlast
        exact ⟨t, rfl, hlast⟩
  obtain ⟨p0, hnew, htok, hInv, hpos⟩ := new_spec toks t ht hk
  have hloop := parseLoop_ne_none (toks.length + 1) p0 [] hInv
    (by rw [htok]; exact hpos) (by rw [htok]; exact hlast) (by rw [htok]; omega)
  unfold Parser.parse_program
  rw [hnew]
  cases hpl : parseLoop (toks.length + 1) p0 [] with
  | none => exact absurd hpl hloop
  | some r =>
      cases r with
      | error e => simp [hpl]
      | ok stmts => simp [hpl]

/-- C4: every grammar-rule attempt (let-statement, binary-expression
statement, function declaration) that fails restores the cursor to exactly
the entry state before returning its error (the entry state satisfies the
cursor invariant read_position = position + 1, and the reset reproduces it
field by field), so failed attempts are observably no-ops; and parsing the
token sequence of "let x: int32 = 5" (no trailing semicolon) fails with a
message beginning "Expected semicolon", appending no statement. -/
theorem C4_backtracking_discipline :
    (∀ (p : Parser) (e : String) (p1 : Parser), p.read_position = p.position + 1 →
      (p.try_parse_let_stmt = some (Except.error e, p1) → p1 = p) ∧
      (p.try_parse_binary_expression = (Except.error e, p1) → p1 = p) ∧
      (p.try_parse_function = some (Except.error e, p1) → p1 = p)) ∧
    (∃ msg, Parser.parse_program c4Tokens = some (Except.error msg) ∧
      msg.toList.take 18 = "Expected semicolon".toList) := by
  constructor
  · intro p e p1 hInv
    exact ⟨let_stmt_reset p e p1 hInv, binary_reset p e p1 hInv, function_reset p e p1 hInv⟩
  · exact ⟨"Expected semicolon at end of statement, got " ++ tokenDebug (tok "let" 0 Kind.Let),
      by decide, by decide⟩

/-- Witness for C4_backtracking_discipline: the let rule applied to the
token sequence of "let x: int32 = 5" from its entry state; the attempt
fails and the reset state equals the entry state. -/
theorem C4_backtracking_discipline_witness :
    (⟨c4Tokens, 0, 1⟩ : Parser) = ⟨c4Tokens, 0, 1⟩ :=
  (C4_backtracking_discipline.1 ⟨c4Tokens, 0, 1⟩
      ("Expected semicolon at end of statement, got " ++ tokenDebug (tok "let" 0 Kind.Let))
      ⟨c4Tokens, 0, 1⟩ rfl).1 (by decide)

/-- C5: parsing the token sequence of "let mut x: int32 = y;" succeeds and
yields a Program with exactly one Let statement: identifier "x", mutable
true, type int32, and the identifier expression "y". -/
theorem C5_let_mut_statement :
    Parser.parse_program c5Tokens =
      some (Except.ok ⟨[Statement.Let ⟨⟨bytes "x"⟩, true, ⟨bytes "int32"⟩,
        Expression.Identifier ⟨bytes "y"⟩⟩]⟩) := by decide

/-- C6: the parser accepts only the int32 keyword at a type position.  For
every other sized numeric keyword kind, both the let-statement and the
function-declaration parse fail, and the whole parse fails with that rule's
error; with int32 both parse without error.  The last two conjuncts show
the whole-parse error is the rule's type error for two sample kinds: the
let rule formats the colon token (parser.rs line 100) and the function rule
formats the entry token after the reset (parser.rs lines 262-263). -/
theorem C6_only_int32_type :
    ((numericKinds.filter (fun k => k ≠ Kind.Int32)).all
      (fun k => isParseError (Parser.parse_program (letTokensWithType k)) &&
        isParseError (Parser.parse_program (fnTokensWithType k))) = true) ∧
      isParseError (Parser.parse_program (letTokensWithType Kind.Int32)) = false ∧
      isParseError (Parser.parse_program (fnTokensWithType Kind.Int32)) = false ∧
      Parser.parse_program (letTokensWithType Kind.Int64) =
        some (Except.error ("Expected type, got " ++ tokenDebug (tok ":" 5 Kind.Colon))) ∧
      Parser.parse_program (fnTokensWithType Kind.Float32) =
        some (Except.error ("Expected 'int32', got " ++ tokenDebug (tok "fn" 0 Kind.Fn))) := by
  decide

/-- C9 (counterexample): the token sequence consisting of two end-of-file
tokens contains more than one end-of-file token, yet no assertion fires:
Parser::new's assertions only check nonemptiness and the kind of the last
token, and the parse succeeds with an empty Program. -/
theorem C9_eof_precondition_counterexample :
    (([Token.end_of_file 0, Token.end_of_file 0].filter
        (fun t => t.kind == Kind.EndOfFile)).length = 2) ∧
      Parser.parse_program [Token.end_of_file 0, Token.end_of_file 0] =
        some (Except.ok ⟨[]⟩) := by decide

/-- C9 (amended): parse_program's precondition is that the token sequence
is nonempty and its last token is end-of-file (uniqueness of the end-of-file
token is not checked).  An empty sequence or a last token of another kind
fires an assertion (the none outcome); under the precondition no assertion
ever fires: the dispatcher guarantees each rule's entry assertion and every
successful statement strictly advances the cursor, so the loop terminates
in a program or a syntax error. -/
theorem C9_eof_precondition_amended :
    Parser.parse_program [] = none ∧
    (∀ (toks : List Token) (t : Token), toks.getLast? = some t →
      t.kind ≠ Kind.EndOfFile → Parser.parse_program toks = none) ∧
    (∀ toks : List Token, (toks.getLast?).map Token.kind = some Kind.EndOfFile →
      Parser.parse_program toks ≠ none) := by
  refine ⟨by decide, ?_, ?_⟩
  · intro toks t hg hk
    unfold Parser.parse_program Parser.new
    simp only [hg]
    rw [if_neg hk]
  · intro toks hl
    exact parse_program_ne_none toks hl

/-- Witness for C9_eof_precondition_amended: a single end-of-file token
satisfies the precondition and the parse does not hit an assertion. -/
theorem C9_eof_precondition_amended_witness :
    Parser.parse_program [Token.end_of_file 0] ≠ none :=
  C9_eof_precondition_amended.2.2 [Token.end_of_file 0] (by decide)

